import Mathlib

/-!
Verification development for the Doorkey interpreter
(github.com/tmoore2016/interpreter), a Monkey-derivative tree-walking
interpreter written in Go.

The Go sources are embedded shallowly:

* `lib/token/token.go`   → `Doorkey.Token` and the kind constants,
* `lib/lexer/lexer.go`   → `Doorkey.Lexer` and `Doorkey.Lexer.NextToken`,
* `lib/ast/ast.go`       → `Doorkey.Expr`/`Doorkey.Stmt`/`Doorkey.Block` and
  the `String()` reprint functions,
* `lib/parser/parser.go` → the Pratt parser (`Doorkey.parseProgram` etc.),
* `lib/object/*.go`      → `Doorkey.Object`, hash keys, environments,
* `lib/evaluator/*.go`   → `Doorkey.Eval` and its helpers.

Modelling conventions, applied uniformly:

* Go's `int64` values are Lean `Int`s; every arithmetic operation that can
  overflow is wrapped with `wrap64` (two's-complement reduction mod 2^64),
  and `uint64` hash arithmetic is `Nat` reduced `% 2^64`.
* A Go interface value that may be `nil` is an `Option`; `none` is Go `nil`.
* A Go runtime panic (nil dereference, out-of-range index, division by
  zero) and fuel exhaustion of the embedding are both modelled by an outer
  `Option` returning `none`; every Go function that can panic or recurse
  unboundedly returns `Option _` and takes a fuel argument where needed.
* Go source text is modelled as `List Char`; all programs considered by the
  concrete theorems are ASCII, where Go's byte indexing and the `List Char`
  indexing agree character for character.
* Mutable state (the lexer, parser, and the environment heap) is passed
  explicitly; the environment chain lives in a `Store` (list of frames
  addressed by index) because Go environments are shared mutable references.
-/

namespace Doorkey

/-! ## Tokens (`lib/token/token.go`) -/

/-- Go `token.Token`: a pair of kind (`Type`, a string in Go) and the
verbatim literal text. -/
structure Token where
  type : String
  literal : String
deriving Repr, DecidableEq

namespace Tok

def ILLEGAL : String := "ILLEGAL"
def EOF : String := "EOF"
def IDENT : String := "IDENT"
def INT : String := "INT"
def ASSIGN : String := "="
def PLUS : String := "+"
def MINUS : String := "-"
def NOT : String := "!"
def MULTIPLY : String := "*"
def DIVIDE : String := "/"
def LT : String := "<"
def GT : String := ">"
def EQ : String := "=="
def NOT_EQ : String := "!="
def COMMA : String := ","
def SEMICOLON : String := ";"
def LPAREN : String := "("
def RPAREN : String := ")"
def LBRACE : String := "\x7b"
def RBRACE : String := "\x7d"
def FUNCTION : String := "FUNCTION"
def LET : String := "LET"
def TRUE : String := "TRUE"
def FALSE : String := "FALSE"
def IF : String := "IF"
def ELSE : String := "ELSE"
def RETURN : String := "RETURN"

/-- Modelled from the spec: the token-kind constants `STRING`, `LBRACKET`,
`RBRACKET` and `COLON` are referenced by the live lexer and parser under
`src` but their declarations are missing from the snapshot's
`lib/token/token.go` (that file is a stale revision). The spec's token-kind
list gives `STRING`, `LBRACKET ([)`, `RBRACKET (])`, `COLON (:)`, following
the same value convention as the constants present in the source. -/
def STRING : String := "STRING"

/-- Modelled from the spec: see `Tok.STRING`. -/
def LBRACKET : String := "["

/-- Modelled from the spec: see `Tok.STRING`. -/
def RBRACKET : String := "]"

/-- Modelled from the spec: see `Tok.STRING`. -/
def COLON : String := ":"

end Tok

/-- Go `token.LookupIdent`: keyword table lookup, defaulting to `IDENT`. -/
def LookupIdent (ident : String) : String :=
  match ident with
  | "fn" => Tok.FUNCTION
  | "let" => Tok.LET
  | "true" => Tok.TRUE
  | "false" => Tok.FALSE
  | "if" => Tok.IF
  | "else" => Tok.ELSE
  | "return" => Tok.RETURN
  | _ => Tok.IDENT

/-! ## Lexer (`lib/lexer/lexer.go`, `src/unnamed/part_003`) -/

/-- Go `lexer.Lexer`. `ch` is the byte under consideration; the end-of-input
sentinel byte `0` is `Char.ofNat 0`. -/
structure Lexer where
  input : List Char
  position : Nat
  readPosition : Nat
  ch : Char
deriving Repr, DecidableEq

/-- Go `(*Lexer).readChar`. -/
def Lexer.readChar (l : Lexer) : Lexer :=
  let c := if l.readPosition ≥ l.input.length then Char.ofNat 0
           else l.input.getD l.readPosition (Char.ofNat 0)
  { l with ch := c, position := l.readPosition, readPosition := l.readPosition + 1 }

/-- Go `lexer.New`. -/
def Lexer.New (input : List Char) : Lexer :=
  Lexer.readChar { input := input, position := 0, readPosition := 0, ch := Char.ofNat 0 }

/-- Go `(*Lexer).peekChar`. -/
def Lexer.peekChar (l : Lexer) : Char :=
  if l.readPosition ≥ l.input.length then Char.ofNat 0
  else l.input.getD l.readPosition (Char.ofNat 0)

/-- Go `isLetter`: ASCII letters, `_` and `$`. -/
def isLetter (ch : Char) : Bool :=
  ('a' ≤ ch ∧ ch ≤ 'z') ∨ ('A' ≤ ch ∧ ch ≤ 'Z') ∨ ch = '_' ∨ ch = '$'

/-- Go `isDigit`. -/
def isDigit (ch : Char) : Bool :=
  '0' ≤ ch ∧ ch ≤ '9'

/-- Loop body of Go `(*Lexer).skipWhitespace`; the fuel argument bounds the
iteration count, and `input.length + 1` steps always reach a non-whitespace
`ch` because each `readChar` advances `readPosition` and past the end of the
input `ch` becomes the (non-whitespace) byte `0`. -/
def Lexer.skipWhitespaceFuel : Nat → Lexer → Lexer
  | 0, l => l
  | n + 1, l =>
    if l.ch = ' ' ∨ l.ch = '\t' ∨ l.ch = '\n' ∨ l.ch = '\r' then
      Lexer.skipWhitespaceFuel n l.readChar
    else l

/-- Go `(*Lexer).skipWhitespace`. -/
def Lexer.skipWhitespace (l : Lexer) : Lexer :=
  Lexer.skipWhitespaceFuel (l.input.length + 1) l

/-- Loop of Go `(*Lexer).readIdentifier` (fuel as in `skipWhitespaceFuel`). -/
def Lexer.readIdentLoop : Nat → Lexer → Lexer
  | 0, l => l
  | n + 1, l => if isLetter l.ch then Lexer.readIdentLoop n l.readChar else l

/-- Go `(*Lexer).readIdentifier`: returns the slice
`input[position : final position]` and the advanced lexer. -/
def Lexer.readIdentifier (l : Lexer) : String × Lexer :=
  let l' := Lexer.readIdentLoop (l.input.length + 1) l
  (String.mk ((l.input.drop l.position).take (l'.position - l.position)), l')

/-- Loop of Go `(*Lexer).readNumber`. -/
def Lexer.readNumberLoop : Nat → Lexer → Lexer
  | 0, l => l
  | n + 1, l => if isDigit l.ch then Lexer.readNumberLoop n l.readChar else l

/-- Go `(*Lexer).readNumber`. -/
def Lexer.readNumber (l : Lexer) : String × Lexer :=
  let l' := Lexer.readNumberLoop (l.input.length + 1) l
  (String.mk ((l.input.drop l.position).take (l'.position - l.position)), l')

/-- Loop of Go `(*Lexer).readString`: `readChar` first, stop on `"` or 0. -/
def Lexer.readStringLoop : Nat → Lexer → Lexer
  | 0, l => l
  | n + 1, l =>
    let l' := l.readChar
    if l'.ch = '"' ∨ l'.ch = Char.ofNat 0 then l' else Lexer.readStringLoop n l'

/-- Go `(*Lexer).readString`: the literal is `input[position+1 : final
position]`, the interior of the quotes (no escape processing). -/
def Lexer.readStr (l : Lexer) : String × Lexer :=
  let l' := Lexer.readStringLoop (l.input.length + 1) l
  (String.mk ((l.input.drop (l.position + 1)).take (l'.position - (l.position + 1))), l')

/-- Go `newToken`. -/
def newToken (tokenType : String) (ch : Char) : Token :=
  { type := tokenType, literal := String.mk [ch] }

/-- Go `(*Lexer).NextToken` (`src/unnamed/part_003` lines 83-174), translated
switch case by switch case.  The identifier and number paths return without
the trailing `readChar`; every other path performs it, exactly as in the
source.  Note the source switch has no case for `':'`, so a colon falls
through to the default arm and, being neither letter nor digit, becomes an
`ILLEGAL` token. -/
def Lexer.NextToken (l₀ : Lexer) : Token × Lexer :=
  let l := l₀.skipWhitespace
  match l.ch with
  | '=' =>
    if l.peekChar = '=' then
      let ch := l.ch
      let l₂ := l.readChar
      let literal := String.mk [ch] ++ String.mk [l₂.ch]
      ({ type := Tok.EQ, literal := literal }, l₂.readChar)
    else (newToken Tok.ASSIGN l.ch, l.readChar)
  | '!' =>
    if l.peekChar = '=' then
      let ch := l.ch
      let l₂ := l.readChar
      let literal := String.mk [ch] ++ String.mk [l₂.ch]
      ({ type := Tok.NOT_EQ, literal := literal }, l₂.readChar)
    else (newToken Tok.NOT l.ch, l.readChar)
  | '(' => (newToken Tok.LPAREN l.ch, l.readChar)
  | ')' => (newToken Tok.RPAREN l.ch, l.readChar)
  | ';' => (newToken Tok.SEMICOLON l.ch, l.readChar)
  | ',' => (newToken Tok.COMMA l.ch, l.readChar)
  | '+' => (newToken Tok.PLUS l.ch, l.readChar)
  | '-' => (newToken Tok.MINUS l.ch, l.readChar)
  | '/' => (newToken Tok.DIVIDE l.ch, l.readChar)
  | '*' => (newToken Tok.MULTIPLY l.ch, l.readChar)
  | '<' => (newToken Tok.LT l.ch, l.readChar)
  | '>' => (newToken Tok.GT l.ch, l.readChar)
  | '{' => (newToken Tok.LBRACE l.ch, l.readChar)
  | '}' => (newToken Tok.RBRACE l.ch, l.readChar)
  | '[' => (newToken Tok.LBRACKET l.ch, l.readChar)
  | ']' => (newToken Tok.RBRACKET l.ch, l.readChar)
  | '"' =>
    let (lit, l') := l.readStr
    ({ type := Tok.STRING, literal := lit }, l'.readChar)
  | c =>
    if c = Char.ofNat 0 then
      ({ type := Tok.EOF, literal := "" }, l.readChar)
    else if isLetter c then
      let (lit, l') := l.readIdentifier
      ({ type := LookupIdent lit, literal := lit }, l')
    else if isDigit c then
      let (lit, l') := l.readNumber
      ({ type := Tok.INT, literal := lit }, l')
    else (newToken Tok.ILLEGAL l.ch, l.readChar)

/-! ## AST (`lib/ast/ast.go`)

Every Go pointer or interface field that can be `nil` is an `Option`.
`ast.HashLiteral` and `ast.IndexExpression` are constructed and consumed by
the live parser and evaluator under `src` but their struct declarations are
absent from the snapshot's stale `lib/ast/ast.go`; their fields
(`Pairs`, `Left`, `Index`) are read off those use sites.  `HashLiteral.Pairs`
is a Go `map[ast.Expression]ast.Expression`; it is embedded as the list of
insertions the parser performs (the map is keyed by pointer identity, so
distinct parses never collide; iteration order is *not* part of the
embedding — see `evalHashPairs`). -/

structure Identifier where
  token : Token
  value : String
deriving Repr, DecidableEq

mutual

inductive Expr where
  | ident (i : Identifier)
  | integerLiteral (token : Token) (value : Int)
  | stringLiteral (token : Token) (value : String)
  | boolean (token : Token) (value : Bool)
  | prefixExpr (token : Token) (operator : String) (right : Option Expr)
  | infixExpr (token : Token) (left : Option Expr) (operator : String) (right : Option Expr)
  | ifExpr (token : Token) (condition : Option Expr) (consequence : Option Block)
      (alternative : Option Block)
  | functionLiteral (token : Token) (parameters : Option (List Identifier))
      (body : Option Block)
  | callExpr (token : Token) (function : Option Expr)
      (arguments : Option (List (Option Expr)))
  | arrayLiteral (token : Token) (elements : Option (List (Option Expr)))
  | indexExpr (token : Token) (left : Option Expr) (index : Option Expr)
  | hashLiteral (token : Token) (pairs : List (Option Expr × Option Expr))

inductive Block where
  | mk (token : Token) (statements : List (Option Stmt))

inductive Stmt where
  | letStmt (token : Token) (name : Option Identifier) (value : Option Expr)
  | returnStmt (token : Token) (returnValue : Option Expr)
  | exprStmt (token : Token) (expression : Option Expr)

end

/-- Go `ast.Program`.  A statement slot is `none` when the Go slice holds a
typed-nil `*ast.LetStatement` (the result of a failed `parseLetStatement`,
which `ParseProgram`'s `stmt != nil` check does not filter out because the
interface value wrapping a typed-nil pointer is non-nil). -/
structure Program where
  statements : List (Option Stmt)

/-- `strings.Join` as used by the `String()` methods. -/
def goJoin (sep : String) : List String → String
  | [] => ""
  | [s] => s
  | s :: rest => s ++ sep ++ goJoin sep rest

mutual

/-- Go `String()` methods of the expression nodes, fuel-indexed; `none` is a
Go panic (calling `String()` through a nil pointer).  Branches follow
`lib/ast/ast.go` case by case.  The `indexExpr` and `hashLiteral` formats are
modelled from the spec's reprint discipline (the canonical parenthesised
form, as in the book's AST), since the snapshot's `ast.go` predates them. -/
def exprString : Nat → Expr → Option String
  | 0, _ => none
  | _ + 1, .ident i => some i.value
  | _ + 1, .integerLiteral tok _ => some tok.literal
  | _ + 1, .stringLiteral tok _ => some tok.literal
  | _ + 1, .boolean tok _ => some tok.literal
  | fuel + 1, .prefixExpr _ op right => do
    let r ← optString fuel right
    pure ("(" ++ op ++ r ++ ")")
  | fuel + 1, .infixExpr _ left op right => do
    let lft ← optString fuel left
    let r ← optString fuel right
    pure ("(" ++ lft ++ " " ++ op ++ " " ++ r ++ ")")
  | fuel + 1, .ifExpr _ cond cons alt => do
    let c ← optString fuel cond
    let cs ← optBlockString fuel cons
    let a ← match alt with
            | none => pure ""
            | some b => do pure ("else " ++ (← blockString fuel b))
    pure ("if" ++ c ++ " " ++ cs ++ a)
  | fuel + 1, .functionLiteral tok params body => do
    let ps := (params.getD []).map (fun i => i.value)
    let b ← optBlockString fuel body
    pure (tok.literal ++ "(" ++ goJoin "," ps ++ ")" ++ b)
  | fuel + 1, .callExpr _ function args => do
    let f ← optString fuel function
    let as ← exprListString fuel (args.getD [])
    pure (f ++ "(" ++ goJoin "," as ++ ")")
  | fuel + 1, .arrayLiteral _ elements => do
    let es ← exprListString fuel (elements.getD [])
    pure ("[" ++ goJoin ", " es ++ "]")
  | fuel + 1, .indexExpr _ left index => do
    let lft ← optString fuel left
    let idx ← optString fuel index
    pure ("(" ++ lft ++ "[" ++ idx ++ "])")
  | fuel + 1, .hashLiteral _ pairs => do
    let ps ← pairStrings fuel pairs
    pure ("\x7b" ++ goJoin ", " ps ++ "\x7d")

/-- `String()` through a possibly-nil `ast.Expression`; Go panics on nil. -/
def optString : Nat → Option Expr → Option String
  | 0, _ => none
  | _ + 1, none => none
  | fuel + 1, some e => exprString fuel e

def exprListString : Nat → List (Option Expr) → Option (List String)
  | 0, _ => none
  | _ + 1, [] => some []
  | fuel + 1, e :: rest => do
    pure ((← optString fuel e) :: (← exprListString fuel rest))

def pairStrings : Nat → List (Option Expr × Option Expr) → Option (List String)
  | 0, _ => none
  | _ + 1, [] => some []
  | fuel + 1, (k, v) :: rest => do
    pure (((← optString fuel k) ++ ":" ++ (← optString fuel v)) :: (← pairStrings fuel rest))

/-- Go `(*BlockStatement).String`. -/
def blockString : Nat → Block → Option String
  | 0, _ => none
  | fuel + 1, .mk _ stmts => do
    let ss ← stmtListString fuel stmts
    pure (String.join ss)

def optBlockString : Nat → Option Block → Option String
  | 0, _ => none
  | _ + 1, none => none
  | fuel + 1, some b => blockString fuel b

def stmtListString : Nat → List (Option Stmt) → Option (List String)
  | 0, _ => none
  | _ + 1, [] => some []
  | fuel + 1, s :: rest => do
    pure ((← optStmtString fuel s) :: (← stmtListString fuel rest))

/-- Go `String()` methods of the statement nodes. -/
def stmtString : Nat → Stmt → Option String
  | 0, _ => none
  | fuel + 1, .letStmt tok name value => do
    let n ← match name with
            | none => none
            | some i => pure i.value
    let v ← match value with
            | none => pure ""
            | some e => exprString fuel e
    pure (tok.literal ++ " " ++ n ++ " = " ++ v ++ ";")
  | fuel + 1, .returnStmt tok rv => do
    let v ← match rv with
            | none => pure ""
            | some e => exprString fuel e
    pure (tok.literal ++ " " ++ v ++ ";")
  | fuel + 1, .exprStmt _ e =>
    match e with
    | none => some ""
    | some e => exprString fuel e

/-- `String()` through a possibly-nil statement slot (a typed-nil
`*ast.LetStatement`): Go panics reading `ls.Token` through the nil pointer. -/
def optStmtString : Nat → Option Stmt → Option String
  | 0, _ => none
  | _ + 1, none => none
  | fuel + 1, some s => stmtString fuel s

end

/-- Go `(*Program).String`. -/
def programString (fuel : Nat) (p : Program) : Option String := do
  let ss ← stmtListString fuel p.statements
  pure (String.join ss)

/-! ## Parser (`lib/parser/parser.go`) -/

/-- The `iota` precedence levels, lowest to highest. -/
def LOWEST : Nat := 1
def EQUALS : Nat := 2
def LESSGREATER : Nat := 3
def SUM : Nat := 4
def PRODUCT : Nat := 5
def PREFIX : Nat := 6
def CALL : Nat := 7
def INDEX : Nat := 8

/-- Go `precedences` map. -/
def precedences (t : String) : Option Nat :=
  if t = Tok.EQ then some EQUALS
  else if t = Tok.NOT_EQ then some EQUALS
  else if t = Tok.LT then some LESSGREATER
  else if t = Tok.GT then some LESSGREATER
  else if t = Tok.PLUS then some SUM
  else if t = Tok.MINUS then some SUM
  else if t = Tok.DIVIDE then some PRODUCT
  else if t = Tok.MULTIPLY then some PRODUCT
  else if t = Tok.LPAREN then some CALL
  else if t = Tok.LBRACKET then some INDEX
  else none

/-- Go `parser.Parser` (the prefix/infix dispatch tables are not state: they
are populated once in `New` with fixed entries, and the embedding inlines
that fixed dispatch into `parseExpression`/`parseExpressionLoop`). -/
structure Parser where
  l : Lexer
  errors : List String
  curToken : Token
  peekToken : Token
deriving Repr, DecidableEq

/-- Go `(*Parser).nextToken`. -/
def Parser.nextToken (p : Parser) : Parser :=
  let (tok, l') := p.l.NextToken
  { p with l := l', curToken := p.peekToken, peekToken := tok }

/-- Go `parser.New`: zero-valued current/peek tokens, advanced twice. -/
def Parser.New (l : Lexer) : Parser :=
  (Parser.nextToken (Parser.nextToken
    { l := l, errors := [], curToken := ⟨"", ""⟩, peekToken := ⟨"", ""⟩ }))

/-- Go `(*Parser).peekPrecedence`. -/
def Parser.peekPrecedence (p : Parser) : Nat :=
  (precedences p.peekToken.type).getD LOWEST

/-- Go `(*Parser).curPrecedence`. -/
def Parser.curPrecedence (p : Parser) : Nat :=
  (precedences p.curToken.type).getD LOWEST

def Parser.curTokenIs (p : Parser) (t : String) : Bool :=
  p.curToken.type = t

def Parser.peekTokenIs (p : Parser) (t : String) : Bool :=
  p.peekToken.type = t

/-- Go `(*Parser).peekError`. -/
def Parser.peekError (p : Parser) (t : String) : Parser :=
  { p with errors := p.errors ++
      ["Expected next token to be " ++ t ++ ", got " ++ p.peekToken.type ++ " instead"] }

/-- Go `(*Parser).expectPeek`. -/
def Parser.expectPeek (p : Parser) (t : String) : Bool × Parser :=
  if p.peekTokenIs t then (true, p.nextToken) else (false, p.peekError t)

/-- Go `(*Parser).noPrefixParseFnError`. -/
def Parser.noPrefixParseFnError (p : Parser) (t : String) : Parser :=
  { p with errors := p.errors ++ ["Invalid prefix operator, type: " ++ t] }

/-- Value of a run of digit characters in the given base, `none` if some
character is not a digit of the base. -/
def digitsVal (base : Nat) : List Char → Option Nat
  | [] => some 0
  | c :: rest =>
    if c.toNat < '0'.toNat ∨ base ≤ c.toNat - '0'.toNat then none
    else do pure ((c.toNat - '0'.toNat) * base ^ rest.length + (← digitsVal base rest))

/-- Go `strconv.ParseInt(s, 0, 64)` restricted to the token literals the
lexer can produce (non-empty decimal digit runs): base 0 means a leading
`0` selects octal (so `08` is a syntax error and `010` is eight), otherwise
decimal; values above `2^63 - 1` are a range error.  `none` is Go's non-nil
`err`. -/
def goParseIntLit (s : String) : Option Int :=
  match s.toList with
  | [] => none
  | ['0'] => some 0
  | '0' :: rest => do
    let v ← digitsVal 8 rest
    if v ≤ 2 ^ 63 - 1 then pure (Int.ofNat v) else none
  | ds => do
    let v ← digitsVal 10 ds
    if v ≤ 2 ^ 63 - 1 then pure (Int.ofNat v) else none

/-- Go `strconv.ParseBool`, which accepts exactly these twelve spellings. -/
def goParseBool (s : String) : Option Bool :=
  if s = "1" ∨ s = "t" ∨ s = "T" ∨ s = "TRUE" ∨ s = "true" ∨ s = "True" then some true
  else if s = "0" ∨ s = "f" ∨ s = "F" ∨ s = "FALSE" ∨ s = "false" ∨ s = "False" then some false
  else none

/-- Go `(*Parser).parseIdentifier`. -/
def Parser.parseIdentifier (p : Parser) : Option Expr × Parser :=
  (some (.ident ⟨p.curToken, p.curToken.literal⟩), p)

/-- Go `(*Parser).parseIntegerLiteral`; the error message is
`fmt.Sprintf("Could not parse %q as integer", lit)` where `%q` wraps the
(plain digit-run) literal in double quotes. -/
def Parser.parseIntegerLiteral (p : Parser) : Option Expr × Parser :=
  let tok := p.curToken
  match goParseIntLit tok.literal with
  | none =>
    (none, { p with errors := p.errors ++
        ["Could not parse \"" ++ tok.literal ++ "\" as integer"] })
  | some v => (some (.integerLiteral tok v), p)

/-- Go `(*Parser).parseBoolean` (the rewritten `strconv.ParseBool` version). -/
def Parser.parseBoolean (p : Parser) : Option Expr × Parser :=
  let tok := p.curToken
  match goParseBool tok.literal with
  | none =>
    (none, { p with errors := p.errors ++
        ["Could not parse \"" ++ tok.literal ++ "\" as Boolean"] })
  | some v => (some (.boolean tok v), p)

/-- Go `(*Parser).parseStringLiteral`. -/
def Parser.parseStringLiteral (p : Parser) : Option Expr × Parser :=
  (some (.stringLiteral p.curToken p.curToken.literal), p)

/-- Comma loop of Go `(*Parser).parseFunctionParameters`. -/
def paramLoop : Nat → List Identifier → Parser → Option (List Identifier) × Parser
  | 0, _, p => (none, p)
  | fuel + 1, acc, p =>
    if p.peekTokenIs Tok.COMMA then
      let p := p.nextToken.nextToken
      paramLoop fuel (acc ++ [⟨p.curToken, p.curToken.literal⟩]) p
    else
      let (ok, p) := p.expectPeek Tok.RPAREN
      if ok then (some acc, p) else (none, p)

/-- Go `(*Parser).parseFunctionParameters`. -/
def Parser.parseFunctionParameters (fuel : Nat) (p : Parser) :
    Option (List Identifier) × Parser :=
  if p.peekTokenIs Tok.RPAREN then (some [], p.nextToken)
  else
    let p := p.nextToken
    paramLoop fuel [⟨p.curToken, p.curToken.literal⟩] p

/-!
The mutually recursive core of the Pratt parser.  Each function carries a
fuel argument (first position) standing for the call depth; recursion always
passes `fuel` from a `fuel + 1` match, and `none`/empty results at fuel 0
are unreachable for ample fuel (every concrete theorem below supplies more
fuel than the token count of its input).  The prefix and infix dispatch
performed through `prefixParseFns`/`infixParseFns` in Go is inlined as the
corresponding case analysis on the token kind, with exactly the entries
registered in `parser.New`.
-/

mutual

/-- Go `(*Parser).parseStatement`. -/
def parseStatement : Nat → Parser → Option Stmt × Parser
  | 0, p => (none, p)
  | fuel + 1, p =>
    if p.curToken.type = Tok.LET then parseLetStatement fuel p
    else if p.curToken.type = Tok.RETURN then parseReturnStatement fuel p
    else parseExpressionStatement fuel p

/-- Go `(*Parser).parseLetStatement`; the `none` results model the typed-nil
`*ast.LetStatement` returned on a failed expectation. -/
def parseLetStatement : Nat → Parser → Option Stmt × Parser
  | 0, p => (none, p)
  | fuel + 1, p =>
    let tok := p.curToken
    let (ok, p) := p.expectPeek Tok.IDENT
    if !ok then (none, p)
    else
      let name : Identifier := ⟨p.curToken, p.curToken.literal⟩
      let (ok, p) := p.expectPeek Tok.ASSIGN
      if !ok then (none, p)
      else
        let p := p.nextToken
        let (value, p) := parseExpression fuel LOWEST p
        let p := if p.peekTokenIs Tok.SEMICOLON then p.nextToken else p
        (some (.letStmt tok (some name) value), p)

/-- Go `(*Parser).parseReturnStatement`. -/
def parseReturnStatement : Nat → Parser → Option Stmt × Parser
  | 0, p => (none, p)
  | fuel + 1, p =>
    let tok := p.curToken
    let p := p.nextToken
    let (rv, p) := parseExpression fuel LOWEST p
    let p := if p.peekTokenIs Tok.SEMICOLON then p.nextToken else p
    (some (.returnStmt tok rv), p)

/-- Go `(*Parser).parseExpressionStatement`. -/
def parseExpressionStatement : Nat → Parser → Option Stmt × Parser
  | 0, p => (none, p)
  | fuel + 1, p =>
    let tok := p.curToken
    let (e, p) := parseExpression fuel LOWEST p
    let p := if p.peekTokenIs Tok.SEMICOLON then p.nextToken else p
    (some (.exprStmt tok e), p)

/-- Go `(*Parser).parseExpression`: prefix dispatch (the registered
`prefixParseFns` entries), then the Pratt loop.  A missing prefix function
records `noPrefixParseFnError` and returns nil without entering the loop. -/
def parseExpression : Nat → Nat → Parser → Option Expr × Parser
  | 0, _, p => (none, p)
  | fuel + 1, precedence, p =>
    let t := p.curToken.type
    if t = Tok.IDENT then
      let (e, p) := p.parseIdentifier
      parseExpressionLoop fuel precedence e p
    else if t = Tok.INT then
      let (e, p) := p.parseIntegerLiteral
      parseExpressionLoop fuel precedence e p
    else if t = Tok.STRING then
      let (e, p) := p.parseStringLiteral
      parseExpressionLoop fuel precedence e p
    else if t = Tok.NOT ∨ t = Tok.MINUS then
      let (e, p) := parsePrefixExpression fuel p
      parseExpressionLoop fuel precedence e p
    else if t = Tok.TRUE ∨ t = Tok.FALSE then
      let (e, p) := p.parseBoolean
      parseExpressionLoop fuel precedence e p
    else if t = Tok.LPAREN then
      let (e, p) := parseGroupedExpression fuel p
      parseExpressionLoop fuel precedence e p
    else if t = Tok.IF then
      let (e, p) := parseIfExpression fuel p
      parseExpressionLoop fuel precedence e p
    else if t = Tok.FUNCTION then
      let (e, p) := parseFunctionLiteral fuel p
      parseExpressionLoop fuel precedence e p
    else if t = Tok.LBRACKET then
      let (e, p) := parseArrayLiteral fuel p
      parseExpressionLoop fuel precedence e p
    else if t = Tok.LBRACE then
      let (e, p) := parseHashLiteral fuel p
      parseExpressionLoop fuel precedence e p
    else (none, p.noPrefixParseFnError t)

/-- The Pratt loop of Go `parseExpression`: while the peek token is not a
semicolon and the running precedence is *strictly* below the peek
precedence, dispatch the registered infix function (arithmetic/comparison
operators, call `(`, index `[`); a peek token with no infix function ends
the loop. -/
def parseExpressionLoop : Nat → Nat → Option Expr → Parser → Option Expr × Parser
  | 0, _, left, p => (left, p)
  | fuel + 1, precedence, left, p =>
    if ¬p.peekTokenIs Tok.SEMICOLON ∧ precedence < p.peekPrecedence then
      let t := p.peekToken.type
      if t = Tok.PLUS ∨ t = Tok.MINUS ∨ t = Tok.DIVIDE ∨ t = Tok.MULTIPLY ∨
          t = Tok.EQ ∨ t = Tok.NOT_EQ ∨ t = Tok.LT ∨ t = Tok.GT then
        let p := p.nextToken
        let (left', p) := parseInfixExpression fuel left p
        parseExpressionLoop fuel precedence left' p
      else if t = Tok.LPAREN then
        let p := p.nextToken
        let (left', p) := parseCallExpression fuel left p
        parseExpressionLoop fuel precedence left' p
      else if t = Tok.LBRACKET then
        let p := p.nextToken
        let (left', p) := parseIndexExpression fuel left p
        parseExpressionLoop fuel precedence left' p
      else (left, p)
    else (left, p)

/-- Go `(*Parser).parsePrefixExpression`. -/
def parsePrefixExpression : Nat → Parser → Option Expr × Parser
  | 0, p => (none, p)
  | fuel + 1, p =>
    let tok := p.curToken
    let p := p.nextToken
    let (right, p) := parseExpression fuel PREFIX p
    (some (.prefixExpr tok tok.literal right), p)

/-- Go `(*Parser).parseInfixExpression`. -/
def parseInfixExpression : Nat → Option Expr → Parser → Option Expr × Parser
  | 0, _, p => (none, p)
  | fuel + 1, left, p =>
    let tok := p.curToken
    let precedence := p.curPrecedence
    let p := p.nextToken
    let (right, p) := parseExpression fuel precedence p
    (some (.infixExpr tok left tok.literal right), p)

/-- Go `(*Parser).parseGroupedExpression`. -/
def parseGroupedExpression : Nat → Parser → Option Expr × Parser
  | 0, p => (none, p)
  | fuel + 1, p =>
    let p := p.nextToken
    let (e, p) := parseExpression fuel LOWEST p
    let (ok, p) := p.expectPeek Tok.RPAREN
    if !ok then (none, p) else (e, p)

/-- Go `(*Parser).parseIfExpression`. -/
def parseIfExpression : Nat → Parser → Option Expr × Parser
  | 0, p => (none, p)
  | fuel + 1, p =>
    let tok := p.curToken
    let (ok, p) := p.expectPeek Tok.LPAREN
    if !ok then (none, p)
    else
      let p := p.nextToken
      let (cond, p) := parseExpression fuel LOWEST p
      let (ok, p) := p.expectPeek Tok.RPAREN
      if !ok then (none, p)
      else
        let (ok, p) := p.expectPeek Tok.LBRACE
        if !ok then (none, p)
        else
          let (cons, p) := parseBlockStatement fuel p
          if p.peekTokenIs Tok.ELSE then
            let p := p.nextToken
            let (ok, p) := p.expectPeek Tok.LBRACE
            if !ok then (none, p)
            else
              let (alt, p) := parseBlockStatement fuel p
              (some (.ifExpr tok cond (some cons) (some alt)), p)
          else (some (.ifExpr tok cond (some cons) none), p)

/-- Go `(*Parser).parseBlockStatement`. -/
def parseBlockStatement : Nat → Parser → Block × Parser
  | 0, p => (.mk p.curToken [], p)
  | fuel + 1, p =>
    let tok := p.curToken
    let p := p.nextToken
    blockLoop fuel tok [] p

/-- Statement loop of Go `parseBlockStatement` (until `}` or `EOF`). -/
def blockLoop : Nat → Token → List (Option Stmt) → Parser → Block × Parser
  | 0, tok, acc, p => (.mk tok acc, p)
  | fuel + 1, tok, acc, p =>
    if ¬p.curTokenIs Tok.RBRACE ∧ ¬p.curTokenIs Tok.EOF then
      let (stmt, p) := parseStatement fuel p
      blockLoop fuel tok (acc ++ [stmt]) p.nextToken
    else (.mk tok acc, p)

/-- Go `(*Parser).parseFunctionLiteral`. -/
def parseFunctionLiteral : Nat → Parser → Option Expr × Parser
  | 0, p => (none, p)
  | fuel + 1, p =>
    let tok := p.curToken
    let (ok, p) := p.expectPeek Tok.LPAREN
    if !ok then (none, p)
    else
      let (params, p) := p.parseFunctionParameters (fuel + 1)
      let (ok, p) := p.expectPeek Tok.LBRACE
      if !ok then (none, p)
      else
        let (body, p) := parseBlockStatement fuel p
        (some (.functionLiteral tok params (some body)), p)

/-- Go `(*Parser).parseCallExpression`. -/
def parseCallExpression : Nat → Option Expr → Parser → Option Expr × Parser
  | 0, _, p => (none, p)
  | fuel + 1, function, p =>
    let tok := p.curToken
    let (args, p) := parseExpressionList fuel Tok.RPAREN p
    (some (.callExpr tok function args), p)

/-- Go `(*Parser).parseExpressionList`. -/
def parseExpressionList : Nat → String → Parser → Option (List (Option Expr)) × Parser
  | 0, _, p => (none, p)
  | fuel + 1, endTok, p =>
    if p.peekTokenIs endTok then (some [], p.nextToken)
    else
      let p := p.nextToken
      let (e, p) := parseExpression fuel LOWEST p
      exprListLoop fuel endTok [e] p

/-- Comma loop of Go `parseExpressionList`. -/
def exprListLoop : Nat → String → List (Option Expr) → Parser →
    Option (List (Option Expr)) × Parser
  | 0, _, _, p => (none, p)
  | fuel + 1, endTok, acc, p =>
    if p.peekTokenIs Tok.COMMA then
      let p := p.nextToken.nextToken
      let (e, p) := parseExpression fuel LOWEST p
      exprListLoop fuel endTok (acc ++ [e]) p
    else
      let (ok, p) := p.expectPeek endTok
      if !ok then (none, p) else (some acc, p)

/-- Go `(*Parser).parseArrayLiteral`. -/
def parseArrayLiteral : Nat → Parser → Option Expr × Parser
  | 0, p => (none, p)
  | fuel + 1, p =>
    let tok := p.curToken
    let (elements, p) := parseExpressionList fuel Tok.RBRACKET p
    (some (.arrayLiteral tok elements), p)

/-- Go `(*Parser).parseIndexExpression`. -/
def parseIndexExpression : Nat → Option Expr → Parser → Option Expr × Parser
  | 0, _, p => (none, p)
  | fuel + 1, left, p =>
    let tok := p.curToken
    let p := p.nextToken
    let (index, p) := parseExpression fuel LOWEST p
    let (ok, p) := p.expectPeek Tok.RBRACKET
    if !ok then (none, p) else (some (.indexExpr tok left index), p)

/-- Go `(*Parser).parseHashLiteral`.  `pairs` records the key/value
insertions in source order; the Go code inserts them into a
`map[ast.Expression]ast.Expression` whose iteration order is unspecified. -/
def parseHashLiteral : Nat → Parser → Option Expr × Parser
  | 0, p => (none, p)
  | fuel + 1, p =>
    let tok := p.curToken
    hashLoop fuel tok [] p

/-- Pair loop of Go `parseHashLiteral`. -/
def hashLoop : Nat → Token → List (Option Expr × Option Expr) → Parser →
    Option Expr × Parser
  | 0, _, _, p => (none, p)
  | fuel + 1, tok, acc, p =>
    if ¬p.peekTokenIs Tok.RBRACE then
      let p := p.nextToken
      let (key, p) := parseExpression fuel LOWEST p
      let (ok, p) := p.expectPeek Tok.COLON
      if !ok then (none, p)
      else
        let p := p.nextToken
        let (value, p) := parseExpression fuel LOWEST p
        let acc := acc ++ [(key, value)]
        if ¬p.peekTokenIs Tok.RBRACE then
          let (ok, p) := p.expectPeek Tok.COMMA
          if !ok then (none, p) else hashLoop fuel tok acc p
        else hashLoop fuel tok acc p
    else
      let (ok, p) := p.expectPeek Tok.RBRACE
      if !ok then (none, p) else (some (.hashLiteral tok acc), p)

end

/-- Statement loop of Go `(*Parser).ParseProgram`.  `parseStatement` never
returns a nil *interface* (a failed `parseLetStatement` yields a non-nil
interface wrapping a typed-nil pointer), so the `stmt != nil` check in the
source never filters anything and every result is appended. -/
def parseProgramLoop : Nat → Parser → List (Option Stmt) → List (Option Stmt) × Parser
  | 0, p, acc => (acc, p)
  | fuel + 1, p, acc =>
    if p.curToken.type ≠ Tok.EOF then
      let (stmt, p) := parseStatement fuel p
      parseProgramLoop fuel p.nextToken (acc ++ [stmt])
    else (acc, p)

/-- Go `(*Parser).ParseProgram`. -/
def Parser.ParseProgram (fuel : Nat) (p : Parser) : Program × Parser :=
  let (stmts, p) := parseProgramLoop fuel p []
  ({ statements := stmts }, p)

/-- Parse a source text end to end, as the REPL does: `lexer.New`,
`parser.New`, `ParseProgram`.  Returns the program and the parser errors. -/
def parseSource (fuel : Nat) (input : String) : Program × List String :=
  let p := Parser.New (Lexer.New input.toList)
  let (prog, p) := p.ParseProgram fuel
  (prog, p.errors)

/-- Reprint of a parsed source, `program.String()`. -/
def reprint (fuel : Nat) (input : String) : Option String :=
  programString fuel (parseSource fuel input).1

/-! ## Objects (`lib/object/object.go`) -/

/-- Two's-complement reduction: the value of a Go `int64` expression whose
mathematical value is `n`. -/
def wrap64 (n : Int) : Int :=
  (n + 2 ^ 63) % 2 ^ 64 - 2 ^ 63

/-- Go `uint64(v)` for an `int64` `v`: reinterpretation of the bits. -/
def uint64OfInt (v : Int) : Nat :=
  (v % 2 ^ 64).toNat

/-- The `ObjectType` string constants of `object.go`. -/
def INTEGER_OBJ : String := "INTEGER"
def STRING_OBJ : String := "STRING"
def ARRAY_OBJ : String := "ARRAY"
def BOOLEAN_OBJ : String := "BOOLEAN"
def NULL_OBJ : String := "NULL"
def RETURN_VALUE_OBJ : String := "RETURN_VALUE"
def FUNCTION_OBJ : String := "FUNCTION"
def BUILTIN_OBJ : String := "BUILTIN"
def ERROR_OBJ : String := "ERROR"
def HASH_OBJ : String := "HASH"

/-- Go `object.HashKey`. -/
structure HashKey where
  type : String
  value : Nat
deriving Repr, DecidableEq

/-- The FNV-1a offset basis used by `hash/fnv` `New64a`. -/
def fnvOffsetBasis : Nat := 14695981039346656037

/-- The 64-bit FNV prime. -/
def fnvPrime : Nat := 1099511628211

/-- 64-bit FNV-1a over a byte sequence, as computed by `h.Write` followed by
`h.Sum64` in `(*object.String).HashKey`: hash starts at the offset basis and
each byte is folded in by xor-then-multiply, modulo `2^64`. -/
def fnv64a (bytes : List Nat) : Nat :=
  bytes.foldl (fun h b => ((h ^^^ b) * fnvPrime) % 2 ^ 64) fnvOffsetBasis

/-- The UTF-8 bytes of a string, Go `[]byte(s)`. -/
def stringBytes (s : String) : List Nat :=
  s.toUTF8.toList.map (fun b => b.toNat)

/-- Go `(*object.String).HashKey`. -/
def stringHashKey (s : String) : HashKey :=
  { type := STRING_OBJ, value := fnv64a (stringBytes s) }

/-- The runtime value universe (`object.Object`).  Each constructor is one
of the Go object structs; fields holding Go interface values that may be
nil are `Option Object` (see the file header).  A `Function` holds its
captured environment as an index into the `Store`; a `Builtin` is identified
by its name in the `builtins` table; a `Hash` is the key-indexed pair map as
an association list with replace-on-insert semantics.  The constructor `Str`
is Go's `object.String` (that name would shadow the Lean `String` type in
the `Object` namespace); all other constructors keep their Go names. -/
inductive Object where
  | Integer (value : Int)
  | Str (value : String)
  | Boolean (value : Bool)
  | Null
  | ReturnValue (value : Option Object)
  | Error (message : String)
  | Function (parameters : Option (List Identifier)) (body : Option Block) (env : Nat)
  | Builtin (name : String)
  | Array (elements : List (Option Object))
  | Hash (pairs : List (HashKey × Option Object × Option Object))

/-- A Go `object.Object` interface value: `none` is nil. -/
abbrev GoObj := Option Object

/-- Go `Type()` methods. -/
def Object.typeOf : Object → String
  | .Integer _ => INTEGER_OBJ
  | .Str _ => STRING_OBJ
  | .Boolean _ => BOOLEAN_OBJ
  | .Null => NULL_OBJ
  | .ReturnValue _ => RETURN_VALUE_OBJ
  | .Error _ => ERROR_OBJ
  | .Function _ _ _ => FUNCTION_OBJ
  | .Builtin _ => BUILTIN_OBJ
  | .Array _ => ARRAY_OBJ
  | .Hash _ => HASH_OBJ

/-- The canonical singletons of `evaluator.go` (`var NULL, TRUE, FALSE`). -/
def NULL : Object := .Null

def TRUE : Object := .Boolean true

def FALSE : Object := .Boolean false

/-- The `Hashable` interface: `HashKey()` is defined exactly on `*Boolean`,
`*Integer` and `*String`; `none` means the Go type assertion
`key.(object.Hashable)` fails. -/
def hashKeyOf : Object → Option HashKey
  | .Boolean b => some { type := BOOLEAN_OBJ, value := if b then 1 else 0 }
  | .Integer i => some { type := INTEGER_OBJ, value := uint64OfInt i }
  | .Str s => some (stringHashKey s)
  | _ => none

/-- Insertion into the Go `map[HashKey]HashPair`: replaces the pair of an
existing equal key, otherwise appends. -/
def hashInsert (pairs : List (HashKey × Option Object × Option Object))
    (k : HashKey) (pair : Option Object × Option Object) :
    List (HashKey × Option Object × Option Object) :=
  if pairs.any (fun e => e.1 = k) then
    pairs.map (fun e => if e.1 = k then (k, pair) else e)
  else pairs ++ [(k, pair)]

/-- Lookup in the Go `map[HashKey]HashPair`. -/
def hashGet (pairs : List (HashKey × Option Object × Option Object))
    (k : HashKey) : Option (Option Object × Option Object) :=
  (pairs.find? (fun e => e.1 = k)).map (fun e => e.2)

/-! ## Environments (`lib/object/environment.go`)

A Go `*Environment` is a mutable shared reference, so environments live in
a `Store` (an allocation list of frames) and are denoted by their index.
`NewEnvironment`/`NewEnclosedEnvironment` append a fresh frame; an enclosed
frame's `outer` index always points at an earlier frame, so chains are
acyclic and the `store.length` fuel in `envGet` always suffices. -/

/-- One `object.Environment`: the `store` map (association list with
replace-on-set) and the optional `outer` reference. -/
structure Frame where
  table : List (String × GoObj)
  outer : Option Nat

abbrev Store := List Frame

/-- The fresh store created at the REPL boundary: one empty frame
(`object.NewEnvironment()`), denoted by index 0. -/
def freshStore : Store := [{ table := [], outer := none }]

def tableGet (table : List (String × GoObj)) (name : String) : Option GoObj :=
  (table.find? (fun e => e.1 = name)).map (fun e => e.2)

def tableSet (table : List (String × GoObj)) (name : String) (val : GoObj) :
    List (String × GoObj) :=
  if table.any (fun e => e.1 = name) then
    table.map (fun e => if e.1 = name then (name, val) else e)
  else table ++ [(name, val)]

/-- Go `(*Environment).Get`, walking the outer chain; the fuel is the chain
length bound (see the section comment). -/
def envGetFuel : Nat → Store → Nat → String → Option GoObj
  | 0, _, _, _ => none
  | fuel + 1, store, ref, name =>
    match store.get? ref with
    | none => none
    | some fr =>
      match tableGet fr.table name with
      | some v => some v
      | none =>
        match fr.outer with
        | some o => envGetFuel fuel store o name
        | none => none

def envGet (store : Store) (ref : Nat) (name : String) : Option GoObj :=
  envGetFuel store.length store ref name

/-- Go `(*Environment).Set`: writes the innermost frame only. -/
def envSet (store : Store) (ref : Nat) (name : String) (val : GoObj) : Store :=
  match store.get? ref with
  | none => store
  | some fr => store.set ref { fr with table := tableSet fr.table name val }

/-- Go `object.NewEnclosedEnvironment`: a fresh frame wrapping `outer`. -/
def NewEnclosedEnvironment (outer : Nat) (store : Store) : Nat × Store :=
  (store.length, store ++ [{ table := [], outer := some outer }])

/-! ## Evaluator helpers (`lib/evaluator/evaluator.go`, non-recursive) -/

/-- Go `isError`: nil is not an error. -/
def isError : GoObj → Bool
  | none => false
  | some obj => obj.typeOf = ERROR_OBJ

/-- Go `nativeBoolToBooleanObject`. -/
def nativeBoolToBooleanObject (input : Bool) : Object :=
  if input then TRUE else FALSE

/-- Go `isTruthy`: the switch compares the operand pointer against the
canonical singletons, and a nil operand also reaches the default arm, so
nil is truthy.  Every `Boolean`/`Null` object the evaluator produces is one
of the singletons, so structural matching coincides with Go's pointer
matching here. -/
def isTruthy : GoObj → Bool
  | none => true
  | some .Null => false
  | some (.Boolean b) => b
  | some _ => true

/-- Go `evalNotOperatorExpression`: pointer switch against the singletons;
anything else (nil included) reaches the default arm and yields `FALSE`. -/
def evalNotOperatorExpression : GoObj → Object
  | some (.Boolean true) => FALSE
  | some (.Boolean false) => TRUE
  | some .Null => TRUE
  | _ => FALSE

/-- Go `evalMinusPrefixOperatorExpression`; `right.Type()` through nil
panics (`none`). -/
def evalMinusPrefixOperatorExpression : GoObj → Option Object
  | none => none
  | some right =>
    if right.typeOf ≠ INTEGER_OBJ then
      some (.Error ("Illegal prefix operation, expected integer, received: -" ++ right.typeOf))
    else
      match right with
      | .Integer value => some (.Integer (wrap64 (-value)))
      | _ => none

/-- Go `evalPrefixExpression`.  The unknown-operator arm formats
`right.Type()`, panicking on nil. -/
def evalPrefixExpression (operator : String) (right : GoObj) : Option Object :=
  if operator = "!" then some (evalNotOperatorExpression right)
  else if operator = "-" then evalMinusPrefixOperatorExpression right
  else
    match right with
    | none => none
    | some r => some (.Error ("Illegal prefix operator: " ++ operator ++ r.typeOf))

/-- Go `evalIntegerInfixExpression`: the operands were already dispatched as
integers (the type assertions of the source cannot fail there; on any other
operand this embedding yields the assertion panic `none`).  Arithmetic is
`int64` arithmetic (`wrap64`); division is Go `/`, which truncates toward
zero and panics (`none`) on a zero divisor — there is no zero check and no
`Error` result for it in the source. -/
def evalIntegerInfixExpression (operator : String) (left right : GoObj) : Option Object :=
  match left, right with
  | some (.Integer leftVal), some (.Integer rightVal) =>
    if operator = "+" then some (.Integer (wrap64 (leftVal + rightVal)))
    else if operator = "-" then some (.Integer (wrap64 (leftVal - rightVal)))
    else if operator = "*" then some (.Integer (wrap64 (leftVal * rightVal)))
    else if operator = "/" then
      if rightVal = 0 then none
      else some (.Integer (wrap64 (Int.tdiv leftVal rightVal)))
    else if operator = "<" then some (nativeBoolToBooleanObject (leftVal < rightVal))
    else if operator = ">" then some (nativeBoolToBooleanObject (leftVal > rightVal))
    else if operator = "==" then some (nativeBoolToBooleanObject (leftVal = rightVal))
    else if operator = "!=" then some (nativeBoolToBooleanObject (leftVal ≠ rightVal))
    else
      some (.Error ("Invalid Infix Expression operator, expected ('+' , '-', '*', '/', '<', '>', '==', '!='),/n received: " ++
        INTEGER_OBJ ++ " " ++ operator ++ " " ++ INTEGER_OBJ))
  | _, _ => none

/-- Go `evalStringInfixExpression`: only `+` (concatenation) is defined; any
other operator yields the `Invalid operator` error.  The type assertions
cannot fail at its call site (panic `none` otherwise). -/
def evalStringInfixExpression (operator : String) (left right : GoObj) : Option Object :=
  match left, right with
  | some (.Str leftVal), some (.Str rightVal) =>
    if operator ≠ "+" then
      some (.Error ("Invalid operator: " ++ STRING_OBJ ++ " " ++ operator ++ " " ++ STRING_OBJ))
    else some (.Str (leftVal ++ rightVal))
  | _, _ => none

/-- The interface comparison `left == right` reached by the `==`/`!=` arms
of `evalInfixExpression`: Go compares allocation identity of the operand
pointers.  On the canonical singletons (`TRUE`, `FALSE`, `NULL`) identity
coincides with variant equality, and operands of different variants are
never identical; this embedding does not track allocations, so it renders
two *aliased* composite operands (e.g. `let a = [1]; a == a`) as unequal
where Go would compare their pointers equal.  No theorem in this file
depends on that corner. -/
def goPtrEq : Object → Object → Bool
  | .Boolean a, .Boolean b => a = b
  | .Null, .Null => true
  | _, _ => false

/-- Go `evalInfixExpression`.  Case order as in the source: both-integer,
both-string, `==`, `!=`, type mismatch, default.  The first guard evaluates
`left.Type()`/`right.Type()`, so nil operands panic. -/
def evalInfixExpression (operator : String) (left right : GoObj) : Option Object :=
  match left, right with
  | some l, some r =>
    if l.typeOf = INTEGER_OBJ ∧ r.typeOf = INTEGER_OBJ then
      evalIntegerInfixExpression operator left right
    else if l.typeOf = STRING_OBJ ∧ r.typeOf = STRING_OBJ then
      evalStringInfixExpression operator left right
    else if operator = "==" then some (nativeBoolToBooleanObject (goPtrEq l r))
    else if operator = "!=" then some (nativeBoolToBooleanObject (!goPtrEq l r))
    else if l.typeOf ≠ r.typeOf then
      some (.Error ("type mismatch: " ++ l.typeOf ++ " " ++ operator ++ " " ++ r.typeOf))
    else
      some (.Error ("Illegal infix expression, expected integer-operator-integer, received: " ++
        l.typeOf ++ " " ++ operator ++ " " ++ r.typeOf))
  | _, _ => none

/-- Go `evalArrayIndexExpression`: `max = int64(len)-1`; out of range (idx
negative or above max) yields `NULL`, otherwise the element itself (which,
as a slice slot, may be nil). -/
def evalArrayIndexExpression (array index : Object) : Option GoObj :=
  match array, index with
  | .Array elements, .Integer idx =>
    if idx < 0 ∨ idx > (elements.length : Int) - 1 then some (some NULL)
    else some (elements.getD idx.toNat none)
  | _, _ => none

/-- Go `evalHashIndexExpression`.  A non-hashable key yields the
`Unusable as hash key` error (formatting `index.Type()`, so a nil index
panics); a missing key yields `NULL`; otherwise the stored pair's value. -/
def evalHashIndexExpression (hash : Object) (index : GoObj) : Option GoObj :=
  match hash with
  | .Hash pairs =>
    match index with
    | none => none
    | some idx =>
      match hashKeyOf idx with
      | none => some (some (.Error ("Unusable as hash key: " ++ idx.typeOf)))
      | some k =>
        match hashGet pairs k with
        | none => some (some NULL)
        | some pair => some pair.2
  | _ => none

/-- Go `evalIndexExpression`: dispatch on the operand types.  The first
guard calls `left.Type()` (nil left panics) and, when the left operand is
an array, `index.Type()` (nil index panics there). -/
def evalIndexExpression (left index : GoObj) : Option GoObj :=
  match left with
  | none => none
  | some l =>
    if l.typeOf = ARRAY_OBJ then
      match index with
      | none => none
      | some i =>
        if i.typeOf = INTEGER_OBJ then evalArrayIndexExpression l i
        else if l.typeOf = HASH_OBJ then evalHashIndexExpression l index
        else some (some (.Error ("Index operator not supported: " ++ l.typeOf)))
    else if l.typeOf = HASH_OBJ then evalHashIndexExpression l index
    else some (some (.Error ("Index operator not supported: " ++ l.typeOf)))

/-- Go `unwrapReturnValue`. -/
def unwrapReturnValue : GoObj → GoObj
  | some (.ReturnValue value) => value
  | obj => obj

/-! ### Builtins (`lib/evaluator/builtins.go`) -/

/-- The keys of the `builtins` map. -/
def builtinsLookup (name : String) : Option Object :=
  if name = "puts" ∨ name = "len" ∨ name = "first" ∨ name = "last" ∨
      name = "tail" ∨ name = "push" then some (.Builtin name)
  else none

/-- The `Fn` of each entry of the `builtins` map, dispatched by name.  A nil
argument panics wherever the source calls `args[i].Type()` or `Inspect()` on
it.  (`puts` prints to the terminal; the printing itself is outside the
embedding, and the deep panics `Inspect` can take on objects containing nil
slots are not modelled — no theorem below depends on `puts`.) -/
def applyBuiltin (name : String) (args : List GoObj) : Option GoObj :=
  if name = "puts" then
    if args.all (fun a => a.isSome) then some (some NULL) else none
  else if name = "len" then
    if args.length ≠ 1 then
      some (some (.Error ("wrong number of arguments. got=" ++ toString args.length ++ ", want=1")))
    else
      match args.getD 0 none with
      | some (.Array elements) => some (some (.Integer (Int.ofNat elements.length)))
      | some (.Str value) => some (some (.Integer (Int.ofNat value.utf8ByteSize)))
      | some other => some (some (.Error ("argument to 'len' not supported, got " ++ other.typeOf)))
      | none => none
  else if name = "first" then
    if args.length ≠ 1 then
      some (some (.Error ("wrong number of arguments. got=" ++ toString args.length ++ ", want=1")))
    else
      match args.getD 0 none with
      | none => none
      | some a =>
        if a.typeOf ≠ ARRAY_OBJ then
          some (some (.Error ("argument to 'first' must be an ARRAY, got " ++ a.typeOf)))
        else
          match a with
          | .Array elements =>
            if elements.length > 0 then some (elements.getD 0 none) else some (some NULL)
          | _ => none
  else if name = "last" then
    if args.length ≠ 1 then
      some (some (.Error ("wrong number of arguments. got=" ++ toString args.length ++ ", want=1")))
    else
      match args.getD 0 none with
      | none => none
      | some a =>
        if a.typeOf ≠ ARRAY_OBJ then
          some (some (.Error ("argument to 'last' must be an ARRAY, got " ++ a.typeOf)))
        else
          match a with
          | .Array elements =>
            if elements.length > 0 then some (elements.getD (elements.length - 1) none)
            else some (some NULL)
          | _ => none
  else if name = "tail" then
    if args.length ≠ 1 then
      some (some (.Error ("wrong number of arguments. got=" ++ toString args.length ++ ", want=1")))
    else
      match args.getD 0 none with
      | none => none
      | some a =>
        if a.typeOf ≠ ARRAY_OBJ then
          some (some (.Error ("argument to 'tail' must be an ARRAY, got " ++ a.typeOf)))
        else
          match a with
          | .Array elements =>
            if elements.length > 0 then some (some (.Array (elements.drop 1)))
            else some (some NULL)
          | _ => none
  else if name = "push" then
    if args.length ≠ 2 then
      some (some (.Error ("wrong number of arguments. got=" ++ toString args.length ++ ", want=2")))
    else
      match args.getD 0 none with
      | none => none
      | some a =>
        if a.typeOf ≠ ARRAY_OBJ then
          some (some (.Error ("argument to 'push' must be an ARRAY, got " ++ a.typeOf)))
        else
          match a with
          | .Array elements => some (some (.Array (elements ++ [args.getD 1 none])))
          | _ => none
  else none

/-- The `for paramIdx, param := range fn.Parameters` loop of Go
`extendFunctionEnv`: binds each parameter name to `args[paramIdx]`,
panicking (`none`) when the index is out of range (fewer arguments than
parameters). -/
def setParamsLoop : List Identifier → Nat → List GoObj → Nat → Store → Option Store
  | [], _, _, _, store => some store
  | prm :: rest, paramIdx, args, ref, store =>
    match args.get? paramIdx with
    | none => none
    | some a => setParamsLoop rest (paramIdx + 1) args ref (envSet store ref prm.value a)

/-- Go `extendFunctionEnv`: a fresh environment enclosing the function's
captured one, with the declared parameters bound positionally. -/
def extendFunctionEnv (parameters : Option (List Identifier)) (fnEnv : Nat)
    (args : List GoObj) (store : Store) : Option (Nat × Store) :=
  let (ref, store) := NewEnclosedEnvironment fnEnv store
  match setParamsLoop (parameters.getD []) 0 args ref store with
  | none => none
  | some store => some (ref, store)

/-- The binding table that `extendFunctionEnv`'s loop produces, described
directly: the declared parameters paired positionally with the leading
arguments (`zip` stops at the parameter count, so excess arguments are
ignored), written into an empty frame in order. -/
def bindTableFrom (table : List (String × GoObj)) (params : List Identifier)
    (args : List GoObj) : List (String × GoObj) :=
  (params.zip args).foldl (fun t pa => tableSet t pa.1.value pa.2) table

/-- `bindTableFrom` starting from the empty frame table. -/
def bindTable (params : List Identifier) (args : List GoObj) : List (String × GoObj) :=
  bindTableFrom [] params args

/-- Go `evalIdentifier`: environment lookup, then the `builtins` table, then
the `Identifier not found` error. -/
def evalIdentifier (name : String) (env : Nat) (store : Store) : GoObj :=
  match envGet store env name with
  | some val => val
  | none =>
    match builtinsLookup name with
    | some b => some b
    | none => some (.Error ("Identifier not found: " ++ name))

/-! ## The evaluator (`lib/evaluator/evaluator.go`) -/

/-- An `ast.Node` as passed to Go `Eval`: a program, block statement,
statement, or expression. -/
inductive Node where
  | prog (p : Program)
  | block (b : Block)
  | stmt (s : Stmt)
  | expr (e : Expr)

def exprNode (e : Option Expr) : Option Node := e.map Node.expr

/-!
The mutually recursive evaluator.  Fuel stands for Go's unbounded call
stack: every recursive call passes `fuel` out of a `fuel + 1` match, and
`none` is "the Go run did not return a value at this depth" (which covers
both a deeper recursion and a runtime panic, per the file header).  All
other behaviour — evaluation order, error short-circuiting, environment
mutation — is translated statement by statement from `evaluator.go`.

A hash literal is the one construct whose source iterates a Go map
(`for keyNode, valueNode := range node.Pairs` in `evalHashLiteral`), so the
order in which its pairs are evaluated is *unspecified* in Go.
`evalHashPairs` therefore takes the pair enumeration explicitly as a list:
any permutation of the literal's pairs is a possible Go execution.  `Eval`
itself instantiates it with the insertion (source) order, which is one of
the possible enumerations.
-/

mutual

/-- Go `Eval`, dispatching on the node variant.  A nil node matches no
switch case and falls through to `return nil`. -/
def Eval : Nat → Option Node → Nat → Store → Option (GoObj × Store)
  | 0, _, _, _ => none
  | fuel + 1, node, env, store =>
    match node with
    | none => some (none, store)
    | some (.prog p) => evalProgramLoop fuel none p.statements env store
    | some (.block (.mk _ stmts)) => evalBlockLoop fuel none stmts env store
    | some (.stmt (.exprStmt _ e)) => Eval fuel (exprNode e) env store
    | some (.stmt (.returnStmt _ rv)) =>
      match Eval fuel (exprNode rv) env store with
      | none => none
      | some (val, store) =>
        if isError val then some (val, store)
        else some (some (.ReturnValue val), store)
    | some (.stmt (.letStmt _ name value)) =>
      match Eval fuel (exprNode value) env store with
      | none => none
      | some (val, store) =>
        if isError val then some (val, store)
        else
          match name with
          | none => none
          | some n => some (none, envSet store env n.value val)
    | some (.expr (.integerLiteral _ v)) => some (some (.Integer v), store)
    | some (.expr (.stringLiteral _ v)) => some (some (.Str v), store)
    | some (.expr (.boolean _ v)) => some (some (nativeBoolToBooleanObject v), store)
    | some (.expr (.ident i)) => some (evalIdentifier i.value env store, store)
    | some (.expr (.arrayLiteral _ elements)) =>
      match evalExpressionsLoop fuel [] (elements.getD []) env store with
      | none => none
      | some (elems, store) =>
        if elems.length = 1 ∧ isError (elems.getD 0 none) then
          some (elems.getD 0 none, store)
        else some (some (.Array elems), store)
    | some (.expr (.indexExpr _ left index)) =>
      match Eval fuel (exprNode left) env store with
      | none => none
      | some (l, store) =>
        if isError l then some (l, store)
        else
          match Eval fuel (exprNode index) env store with
          | none => none
          | some (idx, store) =>
            if isError idx then some (idx, store)
            else
              match evalIndexExpression l idx with
              | none => none
              | some r => some (r, store)
    | some (.expr (.hashLiteral _ pairs)) => evalHashPairs fuel pairs [] env store
    | some (.expr (.prefixExpr _ operator right)) =>
      match Eval fuel (exprNode right) env store with
      | none => none
      | some (r, store) =>
        if isError r then some (r, store)
        else
          match evalPrefixExpression operator r with
          | none => none
          | some res => some (some res, store)
    | some (.expr (.infixExpr _ left operator right)) =>
      match Eval fuel (exprNode left) env store with
      | none => none
      | some (l, store) =>
        if isError l then some (l, store)
        else
          match Eval fuel (exprNode right) env store with
          | none => none
          | some (r, store) =>
            if isError r then some (r, store)
            else
              match evalInfixExpression operator l r with
              | none => none
              | some res => some (some res, store)
    | some (.expr (.ifExpr _ cond cons alt)) =>
      evalIfExpression fuel cond cons alt env store
    | some (.expr (.functionLiteral _ params body)) =>
      some (some (.Function params body env), store)
    | some (.expr (.callExpr _ function args)) =>
      match Eval fuel (exprNode function) env store with
      | none => none
      | some (fn, store) =>
        if isError fn then some (fn, store)
        else
          match evalExpressionsLoop fuel [] (args.getD []) env store with
          | none => none
          | some (argv, store) =>
            if argv.length = 1 ∧ isError (argv.getD 0 none) then
              some (argv.getD 0 none, store)
            else applyFunction fuel fn argv store
termination_by structural fuel _ _ _ => fuel

/-- The statement loop of Go `evalProgram`, with the running `result`
accumulated: stop unwrapping on `*object.ReturnValue`, stop on
`*object.Error`, otherwise keep the last result.  A `none` statement slot
is a typed-nil `*ast.LetStatement`, whose field access inside `Eval`
panics. -/
def evalProgramLoop : Nat → GoObj → List (Option Stmt) → Nat → Store →
    Option (GoObj × Store)
  | 0, _, _, _, _ => none
  | _ + 1, result, [], _, store => some (result, store)
  | fuel + 1, _, s :: rest, env, store =>
    match s with
    | none => none
    | some st =>
      match Eval fuel (some (.stmt st)) env store with
      | none => none
      | some (result, store) =>
        match result with
        | some (.ReturnValue value) => some (value, store)
        | some (.Error m) => some (some (.Error m), store)
        | r => evalProgramLoop fuel r rest env store
termination_by structural fuel _ _ _ _ => fuel

/-- The statement loop of Go `evalBlockStatement`: a non-nil result whose
type tag is `RETURN_VALUE` or `ERROR` is returned as-is (no unwrapping). -/
def evalBlockLoop : Nat → GoObj → List (Option Stmt) → Nat → Store →
    Option (GoObj × Store)
  | 0, _, _, _, _ => none
  | _ + 1, result, [], _, store => some (result, store)
  | fuel + 1, _, s :: rest, env, store =>
    match s with
    | none => none
    | some st =>
      match Eval fuel (some (.stmt st)) env store with
      | none => none
      | some (result, store) =>
        match result with
        | some r =>
          if r.typeOf = RETURN_VALUE_OBJ ∨ r.typeOf = ERROR_OBJ then
            some (some r, store)
          else evalBlockLoop fuel (some r) rest env store
        | none => evalBlockLoop fuel none rest env store
termination_by structural fuel _ _ _ _ => fuel

/-- Go `evalExpressions`: left-to-right, and on the first error the
singleton list holding just that error is returned. -/
def evalExpressionsLoop : Nat → List GoObj → List (Option Expr) → Nat → Store →
    Option (List GoObj × Store)
  | 0, _, _, _, _ => none
  | _ + 1, acc, [], _, store => some (acc, store)
  | fuel + 1, acc, e :: rest, env, store =>
    match Eval fuel (exprNode e) env store with
    | none => none
    | some (evaluated, store) =>
      if isError evaluated then some ([evaluated], store)
      else evalExpressionsLoop fuel (acc ++ [evaluated]) rest env store
termination_by structural fuel _ _ _ _ => fuel

/-- Go `evalHashLiteral`'s pair loop, with the enumeration order of the
`node.Pairs` map made explicit (see the section comment).  Per pair: the
key is evaluated, checked for error, checked hashable (`Unusable as hash
key` otherwise — formatting `key.Type()`, so a nil key panics); then the
value is evaluated and checked for error; then the pair is stored under the
key's `HashKey`. -/
def evalHashPairs : Nat → List (Option Expr × Option Expr) →
    List (HashKey × GoObj × GoObj) → Nat → Store → Option (GoObj × Store)
  | 0, _, _, _, _ => none
  | _ + 1, [], pairs, _, store => some (some (.Hash pairs), store)
  | fuel + 1, (keyNode, valueNode) :: rest, pairs, env, store =>
    match Eval fuel (exprNode keyNode) env store with
    | none => none
    | some (key, store) =>
      if isError key then some (key, store)
      else
        match key with
        | none => none
        | some k =>
          match hashKeyOf k with
          | none => some (some (.Error ("Unusable as hash key: " ++ k.typeOf)), store)
          | some hashed =>
            match Eval fuel (exprNode valueNode) env store with
            | none => none
            | some (value, store) =>
              if isError value then some (value, store)
              else evalHashPairs fuel rest (hashInsert pairs hashed (some k, value)) env store
termination_by structural fuel _ _ _ _ => fuel

/-- Go `evalIfExpression`.  A typed-nil consequence block would panic inside
`evalBlockStatement` (`none`); a nil alternative yields `NULL`. -/
def evalIfExpression : Nat → Option Expr → Option Block → Option Block → Nat →
    Store → Option (GoObj × Store)
  | 0, _, _, _, _, _ => none
  | fuel + 1, cond, cons, alt, env, store =>
    match Eval fuel (exprNode cond) env store with
    | none => none
    | some (condition, store) =>
      if isError condition then some (condition, store)
      else if isTruthy condition then
        match cons with
        | none => none
        | some b => Eval fuel (some (.block b)) env store
      else
        match alt with
        | none => some (some NULL, store)
        | some b => Eval fuel (some (.block b)) env store
termination_by structural fuel _ _ _ _ _ => fuel

/-- Go `applyFunction`: a `Function` runs its body in an extended
environment and unwraps a top-level `ReturnValue`; a `Builtin` runs its
native `Fn`; anything else is the `Not a function` error (formatting
`fn.Type()`, so nil panics). -/
def applyFunction : Nat → GoObj → List GoObj → Store → Option (GoObj × Store)
  | 0, _, _, _ => none
  | fuel + 1, fn, args, store =>
    match fn with
    | some (.Function params body fnEnv) =>
      match extendFunctionEnv params fnEnv args store with
      | none => none
      | some (ref, store) =>
        match body with
        | none => none
        | some b =>
          match Eval fuel (some (.block b)) ref store with
          | none => none
          | some (evaluated, store) => some (unwrapReturnValue evaluated, store)
    | some (.Builtin name) =>
      match applyBuiltin name args with
      | none => none
      | some r => some (r, store)
    | some other =>
      some (some (.Error ("Not a function, received type: " ++ other.typeOf)), store)
    | none => none
termination_by structural fuel _ _ _ => fuel

end

/-- Evaluate a program from the fresh environment the REPL creates
(`object.NewEnvironment()`), as `evaluator.Eval(program, env)` does. -/
def runProgram (fuel : Nat) (p : Program) : Option (GoObj × Store) :=
  Eval fuel (some (.prog p)) 0 freshStore

/-- Lex, parse and evaluate a source text from a fresh environment, and
keep only the resulting object. -/
def runSource (fuel : Nat) (input : String) : Option GoObj :=
  (runProgram fuel (parseSource fuel input).1).map (fun r => r.1)

/-! ## `Inspect()` (`lib/object/object.go`)

The printable form of each object, used by the REPL to display results.
`none` is a panic (an `Inspect` call through a nil member) or fuel
exhaustion.  `Hash.Inspect` iterates a Go map, so its pair order is
unspecified; the embedding renders the stored (insertion) order and no
theorem relies on the multi-pair case. -/

mutual

/-- Go `Inspect()` methods, case by case. -/
def Object.inspect : Nat → Object → Option String
  | 0, _ => none
  | _ + 1, .Integer value => some (toString value)
  | _ + 1, .Str value => some value
  | _ + 1, .Boolean value => some (if value then "true" else "false")
  | _ + 1, .Null => some "null"
  | fuel + 1, .ReturnValue value =>
    match value with
    | none => none
    | some v => Object.inspect fuel v
  | _ + 1, .Error message => some ("ERROR: " ++ message)
  | fuel + 1, .Function params body _ =>
    match body with
    | none => none
    | some b => do
      let ps := (params.getD []).map (fun i => i.value)
      let bs ← blockString fuel b
      pure ("fn" ++ "(" ++ goJoin ", " ps ++ ") \x7b\n" ++ bs ++ "\n\x7d")
  | _ + 1, .Builtin _ => some "builtin function"
  | fuel + 1, .Array elements => do
    let es ← inspectList fuel elements
    pure ("[" ++ goJoin ", " es ++ "]")
  | fuel + 1, .Hash pairs => do
    let ps ← inspectPairs fuel pairs
    pure ("\x7b" ++ goJoin ", " ps ++ "\x7d")

def inspectList : Nat → List (Option Object) → Option (List String)
  | 0, _ => none
  | _ + 1, [] => some []
  | fuel + 1, e :: rest =>
    match e with
    | none => none
    | some v => do pure ((← Object.inspect fuel v) :: (← inspectList fuel rest))

def inspectPairs : Nat → List (HashKey × Option Object × Option Object) →
    Option (List String)
  | 0, _ => none
  | _ + 1, [] => some []
  | fuel + 1, (_, k, v) :: rest =>
    match k, v with
    | some kv, some vv => do
      pure (((← Object.inspect fuel kv) ++ ": " ++ (← Object.inspect fuel vv)) ::
        (← inspectPairs fuel rest))
    | _, _ => none

end

/-! ### Observations

`Object` and the evaluator results are nested inductive types for which
this toolchain cannot derive decidable equality, so the concrete theorems
below observe results through `Object.typeOf` and `Object.inspect` — both
of them functions of the source — under which equality is decidable. -/

/-- Observe an evaluator result: `none` for a panic/nonterminating run,
otherwise the type tag and printable form of the resulting object (the tag
`"<nil>"`, which no `Type()` method returns, for a nil result). -/
def obsResult (fuel : Nat) : Option (GoObj × Store) → Option (String × Option String)
  | none => none
  | some (none, _) => some ("<nil>", none)
  | some (some v, _) => some (v.typeOf, v.inspect fuel)

/-- Observe the end-to-end run of a source text. -/
def obsRun (fuel : Nat) (input : String) : Option (String × Option String) :=
  obsResult fuel (runProgram fuel (parseSource fuel input).1)

/-- Observe the type tags of the elements of an evaluation result that is a
constructed array (and nothing else): the decidable window through which a
sentinel hiding inside an array becomes visible. -/
def obsArrayElemTypes (res : Option (GoObj × Store)) : Option (List (Option String)) :=
  match res with
  | some (some (.Array elems), _) => some (elems.map (fun e => e.map Object.typeOf))
  | _ => none



/-! ### The error-containment invariant (for the sentinel claims)

`NoErrInside v` states that no `Error` object occurs strictly inside `v`:
not as the payload of a `ReturnValue`, not as an element of an `Array`, and
not as the key or value of a `Hash` pair.  (A top-level `Error` itself
satisfies it — an `Error` carries only a message string.)  `CleanMem` is
the condition on an embedded or stored slot: nil, or a non-`Error` object
that is itself clean.  `StoreClean` extends the condition to every binding
of every environment frame, and `ResOk` to an evaluator result. -/

/-- `CleanMem r` states that the slot `r` holds no `Error` object anywhere:
it is nil, or an object that is not an `Error` and whose embedded slots —
the payload of a `ReturnValue`, the elements of an `Array`, the keys and
values of a `Hash` — are all clean in turn. -/
inductive CleanMem : GoObj → Prop where
  | nil : CleanMem none
  | integer (value : Int) : CleanMem (some (.Integer value))
  | str (value : String) : CleanMem (some (.Str value))
  | boolean (value : Bool) : CleanMem (some (.Boolean value))
  | null : CleanMem (some .Null)
  | builtin (name : String) : CleanMem (some (.Builtin name))
  | function (parameters : Option (List Identifier)) (body : Option Block) (env : Nat) :
      CleanMem (some (.Function parameters body env))
  | returnValue (value : GoObj) : CleanMem value → CleanMem (some (.ReturnValue value))
  | array (elements : List GoObj) : (∀ e ∈ elements, CleanMem e) →
      CleanMem (some (.Array elements))
  | hash (pairs : List (HashKey × GoObj × GoObj)) :
      (∀ p ∈ pairs, CleanMem p.2.1) → (∀ p ∈ pairs, CleanMem p.2.2) →
      CleanMem (some (.Hash pairs))

/-- An acceptable evaluator result: a clean slot, or a bare `Error` object
(the only position where an `Error` may appear). -/
def ResOk (r : GoObj) : Prop :=
  CleanMem r ∨ ∃ m, r = some (.Error m)

/-- Every binding of every frame of the store is a clean slot. -/
def StoreClean (store : Store) : Prop :=
  ∀ fr ∈ store, ∀ e ∈ fr.table, CleanMem e.2

/-! ## Validation examples

Concrete runs of the embedded pipeline against the behaviours recorded in
the repository's own test files (`evaluator_test.go`, `parser_test.go`). -/

example : (Lexer.NextToken (Lexer.New (":".toList))).1 =
    { type := Tok.ILLEGAL, literal := ":" } := by decide

example : (Lexer.NextToken (Lexer.New ("  let".toList))).1 =
    { type := Tok.LET, literal := "let" } := by decide

example : (Lexer.NextToken (Lexer.New ("== 4".toList))).1 =
    { type := Tok.EQ, literal := "==" } := by decide

example : (Lexer.NextToken (Lexer.New ("\"hi\"".toList))).1 =
    { type := Tok.STRING, literal := "hi" } := by decide

example : (Lexer.NextToken (Lexer.New ("42;".toList))).1 =
    { type := Tok.INT, literal := "42" } := by decide

example : reprint 99 "-a * b" = some "((-a) * b)" := by decide
example : reprint 99 "a + b * c + d / e - f" =
    some "(((a + (b * c)) + (d / e)) - f)" := by decide

example : obsRun 99 "5 + 5 + 5 + 5 - 10" = some ("INTEGER", some "10") := by decide

example : obsRun 99 "let five = 5; let ten = 10; let add = fn(x,y){x+y;}; add(five, ten)" =
    some ("INTEGER", some "15") := by decide

example : obsRun 99 "if (10 > 1) { if (10 > 1) { return 10; } return 1; }" =
    some ("INTEGER", some "10") := by decide

example : obsRun 99 "\"Hulk\" - \"Smash\"" =
    some ("ERROR", some "ERROR: Invalid operator: STRING - STRING") := by decide

example : obsRun 99 "\"Peanut\" + \" \" + \"Butter\"" =
    some ("STRING", some "Peanut Butter") := by decide

example : obsRun 99 "[1,2,3][1]" = some ("INTEGER", some "2") := by decide

example : obsRun 99 "[1,2][5]" = some ("NULL", some "null") := by decide

example : obsRun 99 "let newAdder = fn(x){ fn(y){ x + y } }; let addTwo = newAdder(2); addTwo(2)" =
    some ("INTEGER", some "4") := by decide

example : obsRun 99 "-true" =
    some ("ERROR", some "ERROR: Illegal prefix operation, expected integer, received: -BOOLEAN") := by
  decide

example : obsRun 99 "foobar" =
    some ("ERROR", some "ERROR: Identifier not found: foobar") := by decide

example : obsRun 99 "fn(x){x;}(1,2,3)" = some ("INTEGER", some "1") := by decide

example : obsRun 99 "puts(len(\"abcd\"))" = some ("NULL", some "null") := by decide

example : obsRun 99 "push(tail([1,2,3]), first([4]))" =
    some ("ARRAY", some "[2, 3, 4]") := by decide

/-! ## Claims -/

/-- C4: the spec states that the lexer maps the single byte `:` to its own
token kind COLON exactly as it maps the other single-character punctuation.
The lexer's `NextToken` switch has no case for `':'` (and the snapshot's
`token.go` declares no COLON constant), so `:` falls to the default arm and
— being neither letter nor digit — lexes as ILLEGAL with literal `":"`,
while the neighbouring punctuation bytes do map 1:1 to their kinds.
Consequently the hash-index source `{"age": 5}["age"]` from the repository's
own evaluator tests fails to parse, its first diagnostic being the COLON
expectation.  This contradicts both the spec and the repository's tests:
the claim is recorded as a code bug, and this theorem evaluates the code at
the failing input. -/
theorem c4_colon_lexes_illegal :
    (Lexer.NextToken (Lexer.New ":".toList)).1 = { type := Tok.ILLEGAL, literal := ":" } ∧
    (Lexer.NextToken (Lexer.New ":".toList)).1.type ≠ Tok.COLON ∧
    (Lexer.NextToken (Lexer.New ";".toList)).1 = { type := Tok.SEMICOLON, literal := ";" } ∧
    (Lexer.NextToken (Lexer.New ",".toList)).1 = { type := Tok.COMMA, literal := "," } ∧
    (Lexer.NextToken (Lexer.New "+".toList)).1 = { type := Tok.PLUS, literal := "+" } ∧
    (Lexer.NextToken (Lexer.New "-".toList)).1 = { type := Tok.MINUS, literal := "-" } ∧
    (Lexer.NextToken (Lexer.New "*".toList)).1 = { type := Tok.MULTIPLY, literal := "*" } ∧
    (Lexer.NextToken (Lexer.New "/".toList)).1 = { type := Tok.DIVIDE, literal := "/" } ∧
    (Lexer.NextToken (Lexer.New "<".toList)).1 = { type := Tok.LT, literal := "<" } ∧
    (Lexer.NextToken (Lexer.New ">".toList)).1 = { type := Tok.GT, literal := ">" } ∧
    (Lexer.NextToken (Lexer.New "(".toList)).1 = { type := Tok.LPAREN, literal := "(" } ∧
    (Lexer.NextToken (Lexer.New ")".toList)).1 = { type := Tok.RPAREN, literal := ")" } ∧
    (Lexer.NextToken (Lexer.New "\x7b".toList)).1 = { type := Tok.LBRACE, literal := "\x7b" } ∧
    (Lexer.NextToken (Lexer.New "\x7d".toList)).1 = { type := Tok.RBRACE, literal := "\x7d" } ∧
    (Lexer.NextToken (Lexer.New "[".toList)).1 = { type := Tok.LBRACKET, literal := "[" } ∧
    (Lexer.NextToken (Lexer.New "]".toList)).1 = { type := Tok.RBRACKET, literal := "]" } ∧
    (parseSource 99 "\x7b\"age\": 5\x7d[\"age\"]").2 =
      ["Expected next token to be :, got ILLEGAL instead",
       "Invalid prefix operator, type: ILLEGAL",
       "Invalid prefix operator, type: \x7d"] := by
  decide

/-- C5: indexing an Array value with an Integer index returns the element at
position `i` when `0 ≤ i ≤ len-1` and the canonical NULL — never an Error —
when the index is out of range on either side. -/
theorem c5_array_index_bounds (elements : List (Option Object)) (i : Int) :
    (0 ≤ i ∧ i ≤ (elements.length : Int) - 1 →
      evalIndexExpression (some (.Array elements)) (some (.Integer i)) =
        some (elements.getD i.toNat none)) ∧
    (i < 0 ∨ i > (elements.length : Int) - 1 →
      evalIndexExpression (some (.Array elements)) (some (.Integer i)) =
        some (some NULL)) := by
  unfold evalIndexExpression evalArrayIndexExpression
  simp only [Object.typeOf]
  constructor
  · rintro ⟨h0, h1⟩
    have : ¬(i < 0 ∨ i > (elements.length : Int) - 1) := by omega
    simp [this]
  · intro h
    simp [h]

/-- Witness for `c5_array_index_bounds` at the array `[10, 20]` with the
indexes 1 (in range), 5 and -1 (each out of range). -/
theorem c5_array_index_bounds_witness :
    evalIndexExpression (some (.Array [some (.Integer 10), some (.Integer 20)]))
      (some (.Integer 1)) = some (some (.Integer 20)) ∧
    evalIndexExpression (some (.Array [some (.Integer 10), some (.Integer 20)]))
      (some (.Integer 5)) = some (some NULL) ∧
    evalIndexExpression (some (.Array [some (.Integer 10), some (.Integer 20)]))
      (some (.Integer (-1))) = some (some NULL) := by
  refine ⟨?_, ?_, ?_⟩
  · exact ((c5_array_index_bounds [some (.Integer 10), some (.Integer 20)] 1).1
      (by constructor <;> decide)).trans rfl
  · exact (c5_array_index_bounds [some (.Integer 10), some (.Integer 20)] 5).2
      (Or.inr (by decide))
  · exact (c5_array_index_bounds [some (.Integer 10), some (.Integer 20)] (-1)).2
      (Or.inl (by decide))

/-- C6: all binary infix operators parse left-associatively (the Pratt loop
admits an infix operator only while the running precedence is *strictly*
below the peek precedence, so an operator never extends its own level to
the right), and reprinting yields the canonical parenthesisation: the two
instances named by the spec, and the left-associated chains of each of the
eight registered binary operators. -/
theorem c6_left_assoc_reprint :
    reprint 99 "a + b * c + d / e - f" = some "(((a + (b * c)) + (d / e)) - f)" ∧
    reprint 99 "-a * b" = some "((-a) * b)" ∧
    reprint 99 "a + b + c" = some "((a + b) + c)" ∧
    reprint 99 "a - b - c" = some "((a - b) - c)" ∧
    reprint 99 "a * b * c" = some "((a * b) * c)" ∧
    reprint 99 "a / b / c" = some "((a / b) / c)" ∧
    reprint 99 "a < b < c" = some "((a < b) < c)" ∧
    reprint 99 "a > b > c" = some "((a > b) > c)" ∧
    reprint 99 "a == b == c" = some "((a == b) == c)" ∧
    reprint 99 "a != b != c" = some "((a != b) != c)" ∧
    reprint 99 "3 + 4 * 5 == 3 * 1 + 4 * 5" =
      some "((3 + (4 * 5)) == ((3 * 1) + (4 * 5)))" := by
  decide

/-- C8: an infix expression on two String operands concatenates them under
`+`, and under every other operator — `==` and `!=` included, because the
both-strings dispatch precedes the identity-comparison arms — produces the
error `Invalid operator: STRING <op> STRING`. -/
theorem c8_string_infix (operator s1 s2 : String) :
    evalInfixExpression operator (some (.Str s1)) (some (.Str s2)) =
      some (if operator = "+" then .Str (s1 ++ s2)
            else .Error ("Invalid operator: STRING " ++ operator ++ " STRING")) := by
  unfold evalInfixExpression evalStringInfixExpression
  simp only [Object.typeOf]
  by_cases h : operator = "+"
  · simp [h, STRING_OBJ, INTEGER_OBJ]
  · simp only [if_neg h]
    simp [h, STRING_OBJ, INTEGER_OBJ, String.append_assoc]

/-- C10: integer division is unguarded: it never produces an `Error` value;
a zero right operand makes the Go runtime panic (no value is returned), and
a non-zero right operand yields the `int64` quotient truncated toward zero
(`Int.tdiv` reduced into the `int64` range, which is Go's `/`). -/
theorem c10_division_unguarded (a b : Int) :
    (∀ m : String,
      evalIntegerInfixExpression "/" (some (.Integer a)) (some (.Integer b)) ≠
        some (.Error m)) ∧
    (b = 0 →
      evalIntegerInfixExpression "/" (some (.Integer a)) (some (.Integer b)) = none) ∧
    (b ≠ 0 →
      evalIntegerInfixExpression "/" (some (.Integer a)) (some (.Integer b)) =
        some (.Integer (wrap64 (Int.tdiv a b)))) := by
  unfold evalIntegerInfixExpression
  refine ⟨?_, ?_, ?_⟩
  · intro m
    by_cases h : b = 0 <;> simp [h]
  · intro h
    simp [h]
  · intro h
    simp [h]

/-- Witness for `c10_division_unguarded`: `7 / 2` evaluates to the truncated
quotient 3 (and, by a second application at `-7 / 2`, to -3 rather than the
floor -4). -/
theorem c10_division_unguarded_witness :
    evalIntegerInfixExpression "/" (some (.Integer 7)) (some (.Integer 2)) =
      some (.Integer 3) ∧
    evalIntegerInfixExpression "/" (some (.Integer (-7))) (some (.Integer 2)) =
      some (.Integer (-3)) := by
  constructor
  · exact ((c10_division_unguarded 7 2).2.2 (by decide)).trans
      (by rw [show wrap64 (Int.tdiv 7 2) = 3 from by decide])
  · exact ((c10_division_unguarded (-7) 2).2.2 (by decide)).trans
      (by rw [show wrap64 (Int.tdiv (-7) 2) = -3 from by decide])

/-- Every FNV-1a hash value lies below `2^64` (the fold reduces mod `2^64`
at each step and starts below it). -/
theorem fnv64a_lt (bytes : List Nat) : fnv64a bytes < 2 ^ 64 := by
  unfold fnv64a
  have h : ∀ (l : List Nat) (h0 : Nat), h0 < 2 ^ 64 →
      l.foldl (fun h b => ((h ^^^ b) * fnvPrime) % 2 ^ 64) h0 < 2 ^ 64 := by
    intro l
    induction l with
    | nil => intro h0 hh; simpa using hh
    | cons b rest ih =>
      intro h0 hh
      exact ih _ (Nat.mod_lt _ (by norm_num))
  exact h _ _ (by norm_num [fnvOffsetBasis])

/-- Pigeonhole: the strings `"a"`-repeated-`n`-times for `n : ℕ` are
pairwise distinct but map into the finite 64-bit hash range, so two
distinct strings share a `HashKey`.  (FNV-1a is a non-injective 64-bit
hash; the collision is obtained nonconstructively.) -/
theorem fnv_collision_exists :
    ∃ s1 s2 : String, s1 ≠ s2 ∧ stringHashKey s1 = stringHashKey s2 := by
  obtain ⟨n, m, hnm, heq⟩ :=
    Finite.exists_ne_map_eq_of_infinite
      (fun n : ℕ =>
        (⟨fnv64a (stringBytes (String.mk (List.replicate n 'a'))),
          fnv64a_lt _⟩ : Fin (2 ^ 64)))
  refine ⟨String.mk (List.replicate n 'a'), String.mk (List.replicate m 'a'), ?_, ?_⟩
  · intro h
    apply hnm
    have hdata := congrArg String.data h
    simpa using congrArg List.length hdata
  · unfold stringHashKey
    have hv := congrArg Fin.val heq
    simp only at hv
    rw [hv]

/-- C7 counterexample: the claim's second half — distinct contents always
give distinct HashKeys — is false for the 64-bit FNV-1a hash of
`(*object.String).HashKey`, by pigeonhole. -/
theorem c7_hashkey_injectivity_fails :
    ¬ ∀ s1 s2 : String, s1 ≠ s2 → stringHashKey s1 ≠ stringHashKey s2 := by
  intro hall
  obtain ⟨s1, s2, hne, heq⟩ := fnv_collision_exists
  exact hall s1 s2 hne heq

/-- C7 amended: two String values with equal contents have equal HashKeys
(the hash is a function of the bytes alone), while for distinct contents
the HashKeys differ only up to collisions, which do exist for a 64-bit
hash. -/
theorem c7_hashkey_amended :
    (∀ s1 s2 : String, s1 = s2 → stringHashKey s1 = stringHashKey s2) ∧
    (∃ s1 s2 : String, s1 ≠ s2 ∧ stringHashKey s1 = stringHashKey s2) :=
  ⟨fun _ _ h => congrArg stringHashKey h, fnv_collision_exists⟩

/-- Witness for `c7_hashkey_amended` at the string `"Doorkey"`. -/
theorem c7_hashkey_amended_witness :
    stringHashKey "Doorkey" = stringHashKey "Doorkey" :=
  c7_hashkey_amended.1 "Doorkey" "Doorkey" rfl

/-- Setting the last element of a list by its index. -/
theorem listSet_append_last {α : Type} (pre : List α) (a b : α) :
    (pre ++ [a]).set pre.length b = pre ++ [b] := by
  induction pre with
  | nil => rfl
  | cons x xs ih => simp [List.set, ih]

/-- Reading the last element of a list by its index. -/
theorem listGet_append_last {α : Type} (pre : List α) (a : α) :
    (pre ++ [a]).get? pre.length = some a := by
  induction pre with
  | nil => rfl
  | cons x xs ih => simp [ih]

/-- `envSet` on the frame just appended to the store. -/
theorem envSet_append_last (pre : Store) (fr : Frame) (name : String) (val : GoObj) :
    envSet (pre ++ [fr]) pre.length name val =
      pre ++ [{ fr with table := tableSet fr.table name val }] := by
  simp only [envSet, listGet_append_last, listSet_append_last]

/-- The parameter-binding loop of `extendFunctionEnv`, acting on the frame
appended at the end of the store, produces exactly the `bindTableFrom`
table when there are enough arguments. -/
theorem setParamsLoop_append (params : List Identifier) :
    ∀ (idx : Nat) (args : List GoObj) (pre : Store) (fr : Frame),
      idx + params.length ≤ args.length →
      setParamsLoop params idx args pre.length (pre ++ [fr]) =
        some (pre ++ [{ fr with table := bindTableFrom fr.table params (args.drop idx) }]) := by
  induction params with
  | nil =>
    intro idx args pre fr h
    simp [setParamsLoop, bindTableFrom]
  | cons p rest ih =>
    intro idx args pre fr h
    have hidx : idx < args.length := by
      simp only [List.length_cons] at h
      omega
    have hdrop := List.drop_eq_getElem_cons hidx
    have hget : args.get? idx = some args[idx] := List.get?_eq_get hidx
    simp only [List.length_cons] at h
    simp only [setParamsLoop, hget, envSet_append_last]
    rw [ih (idx + 1) args pre
      { fr with table := tableSet fr.table p.value args[idx] } (by omega)]
    rw [hdrop]
    rfl

/-- C9: calling a user function with at least as many arguments as declared
parameters raises no arity error: `extendFunctionEnv` allocates a fresh
frame enclosing the function's captured environment whose table binds
exactly the declared parameters, positionally to the leading arguments
(excess arguments ignored — `bindTable` pairs via `zip`), and
`applyFunction` proceeds to evaluate the body in that frame and unwrap a
top-level ReturnValue. -/
theorem c9_excess_args (fuel : Nat) (params : List Identifier) (body : Block)
    (fnEnv : Nat) (args : List GoObj) (store : Store)
    (h : params.length ≤ args.length) :
    extendFunctionEnv (some params) fnEnv args store =
      some (store.length,
        store ++ [{ table := bindTable params args, outer := some fnEnv }]) ∧
    applyFunction (fuel + 1) (some (.Function (some params) (some body) fnEnv)) args store =
      (match Eval fuel (some (.block body)) store.length
          (store ++ [{ table := bindTable params args, outer := some fnEnv }]) with
       | none => none
       | some (evaluated, st) => some (unwrapReturnValue evaluated, st)) := by
  have hext : extendFunctionEnv (some params) fnEnv args store =
      some (store.length,
        store ++ [{ table := bindTable params args, outer := some fnEnv }]) := by
    have hloop := setParamsLoop_append params 0 args store { table := [], outer := some fnEnv }
      (by omega)
    simp only [List.drop_zero] at hloop
    simp only [extendFunctionEnv, NewEnclosedEnvironment, Option.getD_some, hloop]
    rfl
  refine ⟨hext, ?_⟩
  simp only [applyFunction, hext]

/-- Witness for `c9_excess_args`: a one-parameter function applied to two
arguments binds only `x`, to the first argument. -/
theorem c9_excess_args_witness :
    extendFunctionEnv (some [⟨⟨"IDENT", "x"⟩, "x"⟩]) 0
        [some (.Integer 1), some (.Integer 2)] freshStore =
      some (1, freshStore ++
        [{ table := bindTable [⟨⟨"IDENT", "x"⟩, "x"⟩] [some (.Integer 1), some (.Integer 2)],
           outer := some 0 }]) ∧
    bindTable [⟨⟨"IDENT", "x"⟩, "x"⟩] [some (.Integer 1), some (.Integer 2)] =
      [("x", some (.Integer 1))] :=
  ⟨(c9_excess_args 8 [⟨⟨"IDENT", "x"⟩, "x"⟩] (Block.mk ⟨"\x7b", "\x7b"⟩ []) 0
      [some (.Integer 1), some (.Integer 2)] freshStore (by decide)).1, rfl⟩

/-- The program loop is the block loop followed by one `ReturnValue`
unwrapping, as long as the carried accumulator is not itself a
`ReturnValue` (the loops only ever carry non-sentinel accumulators). -/
theorem progLoop_eq_blockLoop (fuel : Nat) :
    ∀ (result : GoObj) (stmts : List (Option Stmt)) (env : Nat) (store : Store),
      (∀ v, result = some v → v.typeOf ≠ RETURN_VALUE_OBJ) →
      evalProgramLoop fuel result stmts env store =
        (evalBlockLoop fuel result stmts env store).map
          (fun rs => (unwrapReturnValue rs.1, rs.2)) := by
  induction fuel with
  | zero => intro result stmts env store hr; rfl
  | succ fuel ih =>
    intro result stmts env store hr
    match stmts with
    | [] =>
      simp only [evalProgramLoop, evalBlockLoop, Option.map_some]
      cases result with
      | none => rfl
      | some v =>
        cases v with
        | ReturnValue val => exact absurd (hr (.ReturnValue val) rfl) (fun h => h rfl)
        | _ => rfl
    | none :: rest => rfl
    | some st :: rest =>
      simp only [evalProgramLoop, evalBlockLoop]
      cases hEval : Eval fuel (some (.stmt st)) env store with
      | none => rfl
      | some rs =>
        obtain ⟨r, store'⟩ := rs
        cases r with
        | none => exact ih none rest env store' (fun v hv => nomatch hv)
        | some v =>
          cases v with
          | ReturnValue val => simp [Object.typeOf, RETURN_VALUE_OBJ, unwrapReturnValue]
          | Error m => simp [Object.typeOf, RETURN_VALUE_OBJ, ERROR_OBJ, unwrapReturnValue]
          | Integer n =>
            simp only [Object.typeOf]
            rw [if_neg (by decide)]
            refine ih _ rest env store' ?_
            intro v hv
            cases hv
            show ("INTEGER" : String) ≠ RETURN_VALUE_OBJ
            decide
          | Str val =>
            simp only [Object.typeOf]
            rw [if_neg (by decide)]
            refine ih _ rest env store' ?_
            intro v hv
            cases hv
            show ("STRING" : String) ≠ RETURN_VALUE_OBJ
            decide
          | Boolean b =>
            simp only [Object.typeOf]
            rw [if_neg (by decide)]
            refine ih _ rest env store' ?_
            intro v hv
            cases hv
            show ("BOOLEAN" : String) ≠ RETURN_VALUE_OBJ
            decide
          | Null =>
            simp only [Object.typeOf]
            rw [if_neg (by decide)]
            refine ih _ rest env store' ?_
            intro v hv
            cases hv
            show ("NULL" : String) ≠ RETURN_VALUE_OBJ
            decide
          | Function params body fnEnv =>
            simp only [Object.typeOf]
            rw [if_neg (by decide)]
            refine ih _ rest env store' ?_
            intro v hv
            cases hv
            show ("FUNCTION" : String) ≠ RETURN_VALUE_OBJ
            decide
          | Builtin name =>
            simp only [Object.typeOf]
            rw [if_neg (by decide)]
            refine ih _ rest env store' ?_
            intro v hv
            cases hv
            show ("BUILTIN" : String) ≠ RETURN_VALUE_OBJ
            decide
          | Array elements =>
            simp only [Object.typeOf]
            rw [if_neg (by decide)]
            refine ih _ rest env store' ?_
            intro v hv
            cases hv
            show ("ARRAY" : String) ≠ RETURN_VALUE_OBJ
            decide
          | Hash pairs =>
            simp only [Object.typeOf]
            rw [if_neg (by decide)]
            refine ih _ rest env store' ?_
            intro v hv
            cases hv
            show ("HASH" : String) ≠ RETURN_VALUE_OBJ
            decide

/-- C1: program execution evaluates its statements in order, stopping at
the first statement whose result is a ReturnValue (whose payload it
returns, unwrapped) or an Error (returned as-is); block execution stops at
the same sentinels but propagates the ReturnValue without unwrapping.
Conjunct (a) states the contrast globally: evaluating a `Program` is
exactly evaluating the same statements as a `BlockStatement` followed by
one `unwrapReturnValue`.  Conjuncts (b)-(e) are the step and termination
equations of the two statement loops, exhibiting the stop-at-first-sentinel
discipline. -/
theorem c1_program_block_first_sentinel (fuel : Nat) (tok : Token)
    (stmts : List (Option Stmt)) (st : Stmt) (rest : List (Option Stmt))
    (result : GoObj) (env : Nat) (store : Store) :
    Eval fuel (some (.prog ⟨stmts⟩)) env store =
      (Eval fuel (some (.block (.mk tok stmts))) env store).map
        (fun rs => (unwrapReturnValue rs.1, rs.2)) ∧
    evalProgramLoop (fuel + 1) result (some st :: rest) env store =
      (match Eval fuel (some (.stmt st)) env store with
       | none => none
       | some (r, store') =>
         match r with
         | some (.ReturnValue v) => some (v, store')
         | some (.Error m) => some (some (.Error m), store')
         | r => evalProgramLoop fuel r rest env store') ∧
    evalBlockLoop (fuel + 1) result (some st :: rest) env store =
      (match Eval fuel (some (.stmt st)) env store with
       | none => none
       | some (r, store') =>
         match r with
         | some v =>
           if v.typeOf = RETURN_VALUE_OBJ ∨ v.typeOf = ERROR_OBJ then some (some v, store')
           else evalBlockLoop fuel (some v) rest env store'
         | none => evalBlockLoop fuel none rest env store') ∧
    evalProgramLoop (fuel + 1) result [] env store = some (result, store) ∧
    evalBlockLoop (fuel + 1) result [] env store = some (result, store) := by
  refine ⟨?_, rfl, rfl, rfl, rfl⟩
  cases fuel with
  | zero => rfl
  | succ fuel =>
    simp only [Eval]
    exact progLoop_eq_blockLoop fuel none stmts env store (fun v hv => nomatch hv)

/-- A clean object slot does not hold an `Error`. -/
theorem cleanMem_not_error {v : Object} (h : CleanMem (some v)) :
    v.typeOf ≠ ERROR_OBJ := by
  cases h with
  | integer value => exact show ("INTEGER" : String) ≠ ERROR_OBJ by decide
  | str value => exact show ("STRING" : String) ≠ ERROR_OBJ by decide
  | boolean value => exact show ("BOOLEAN" : String) ≠ ERROR_OBJ by decide
  | null => exact show ("NULL" : String) ≠ ERROR_OBJ by decide
  | builtin name => exact show ("BUILTIN" : String) ≠ ERROR_OBJ by decide
  | function parameters body env => exact show ("FUNCTION" : String) ≠ ERROR_OBJ by decide
  | returnValue value _ => exact show ("RETURN_VALUE" : String) ≠ ERROR_OBJ by decide
  | array elements _ => exact show ("ARRAY" : String) ≠ ERROR_OBJ by decide
  | hash pairs _ _ => exact show ("HASH" : String) ≠ ERROR_OBJ by decide

/-- Only an `Error` object has the `ERROR` type tag. -/
theorem typeOf_eq_error {v : Object} (h : v.typeOf = ERROR_OBJ) : ∃ m, v = .Error m := by
  cases v with
  | Error m => exact ⟨m, rfl⟩
  | Integer value => exact absurd h (show ("INTEGER" : String) ≠ ERROR_OBJ by decide)
  | Str value => exact absurd h (show ("STRING" : String) ≠ ERROR_OBJ by decide)
  | Boolean value => exact absurd h (show ("BOOLEAN" : String) ≠ ERROR_OBJ by decide)
  | Null => exact absurd h (show ("NULL" : String) ≠ ERROR_OBJ by decide)
  | ReturnValue value => exact absurd h (show ("RETURN_VALUE" : String) ≠ ERROR_OBJ by decide)
  | Function parameters body env => exact absurd h (show ("FUNCTION" : String) ≠ ERROR_OBJ by decide)
  | Builtin name => exact absurd h (show ("BUILTIN" : String) ≠ ERROR_OBJ by decide)
  | Array elements => exact absurd h (show ("ARRAY" : String) ≠ ERROR_OBJ by decide)
  | Hash pairs => exact absurd h (show ("HASH" : String) ≠ ERROR_OBJ by decide)

/-- A non-error acceptable result is a clean slot. -/
theorem cleanMem_of_resOk {r : GoObj} (h1 : ResOk r) (h2 : isError r = false) :
    CleanMem r := by
  rcases h1 with h | ⟨m, rfl⟩
  · exact h
  · simp [isError, Object.typeOf] at h2

/-- An error result is literally an `Error` object. -/
theorem error_of_isError {r : GoObj} (h : isError r = true) : ∃ m, r = some (.Error m) := by
  cases r with
  | none => simp [isError] at h
  | some v =>
    simp only [isError, decide_eq_true_eq] at h
    obtain ⟨m, rfl⟩ := typeOf_eq_error h
    exact ⟨m, rfl⟩

/-- `tableSet` keeps a table membershipwise clean. -/
theorem tableSet_clean {table : List (String × GoObj)} {name : String} {val : GoObj}
    (ht : ∀ e ∈ table, CleanMem e.2) (hv : CleanMem val) :
    ∀ e ∈ tableSet table name val, CleanMem e.2 := by
  intro e he
  unfold tableSet at he
  split at he
  · obtain ⟨orig, horig, heq⟩ := List.mem_map.mp he
    by_cases hcase : orig.1 = name
    · simp only [hcase, if_pos] at heq
      subst heq
      exact hv
    · simp only [hcase, if_neg, ite_false] at heq
      subst heq
      exact ht orig horig
  · rcases List.mem_append.mp he with h | h
    · exact ht e h
    · simp at h
      subst h
      exact hv

/-- `envSet` with a clean value keeps the store clean. -/
theorem storeClean_envSet {store : Store} {ref : Nat} {name : String} {val : GoObj}
    (hs : StoreClean store) (hv : CleanMem val) :
    StoreClean (envSet store ref name val) := by
  unfold envSet
  cases hget : store.get? ref with
  | none => exact hs
  | some fr =>
    intro fr' hfr' e he
    rcases List.mem_or_eq_of_mem_set hfr' with h | h
    · exact hs fr' h e he
    · subst h
      exact tableSet_clean (hs fr (List.get?_mem hget)) hv e he

/-- Appending a fresh empty frame keeps the store clean. -/
theorem storeClean_append_fresh {store : Store} (hs : StoreClean store) (o : Option Nat) :
    StoreClean (store ++ [{ table := [], outer := o }]) := by
  intro fr hfr e he
  rcases List.mem_append.mp hfr with h | h
  · exact hs fr h e he
  · simp at h
    subst h
    simp at he

/-- Environment lookup in a clean store yields a clean slot. -/
theorem envGetFuel_clean : ∀ (fuel : Nat) (store : Store) (ref : Nat) (name : String)
    (v : GoObj), StoreClean store → envGetFuel fuel store ref name = some v → CleanMem v := by
  intro fuel
  induction fuel with
  | zero => intro store ref name v _ h; cases h
  | succ fuel ih =>
    intro store ref name v hs h
    simp only [envGetFuel] at h
    cases hget : store.get? ref with
    | none => simp only [hget] at h; cases h
    | some fr =>
      simp only [hget] at h
      cases htab : tableGet fr.table name with
      | some w =>
        simp only [htab, Option.some.injEq] at h
        subst h
        unfold tableGet at htab
        cases hfind : fr.table.find? (fun e => e.1 = name) with
        | none => rw [hfind] at htab; cases htab
        | some e =>
          rw [hfind] at htab
          cases htab
          exact hs fr (List.get?_mem hget) e (List.mem_of_find?_eq_some hfind)
      | none =>
        simp only [htab] at h
        cases houter : fr.outer with
        | none => simp only [houter] at h; cases h
        | some o =>
          simp only [houter] at h
          exact ih store o name v hs h

/-- The parameter-binding loop keeps the store clean when all arguments are
clean. -/
theorem setParamsLoop_clean : ∀ (params : List Identifier) (idx : Nat)
    (args : List GoObj) (ref : Nat) (store store' : Store),
    StoreClean store → (∀ a ∈ args, CleanMem a) →
    setParamsLoop params idx args ref store = some store' → StoreClean store' := by
  intro params
  induction params with
  | nil =>
    intro idx args ref store store' hs _ h
    cases h
    exact hs
  | cons p rest ih =>
    intro idx args ref store store' hs hargs h
    simp only [setParamsLoop] at h
    cases hget : args.get? idx with
    | none => simp only [hget] at h; cases h
    | some a =>
      simp only [hget] at h
      exact ih (idx + 1) args ref _ store'
        (storeClean_envSet hs (hargs a (List.get?_mem hget))) hargs h

/-- Indexing a clean list of slots with a default of nil stays clean. -/
theorem cleanMems_getD {l : List GoObj} (h : ∀ e ∈ l, CleanMem e) :
    ∀ n, CleanMem (l.getD n none) := by
  induction l with
  | nil => intro n; cases n <;> exact .nil
  | cons e rest ih =>
    intro n
    cases n with
    | zero => exact h e (by simp)
    | succ n => exact ih (fun x hx => h x (by simp [hx])) n

/-- A hashable key is not an `Error`. -/
theorem hashable_not_error {k : Object} {hk : HashKey} (h : hashKeyOf k = some hk) :
    k.typeOf ≠ ERROR_OBJ := by
  cases k with
  | Integer value => exact show ("INTEGER" : String) ≠ ERROR_OBJ by decide
  | Str value => exact show ("STRING" : String) ≠ ERROR_OBJ by decide
  | Boolean value => exact show ("BOOLEAN" : String) ≠ ERROR_OBJ by decide
  | Null => cases h
  | ReturnValue value => cases h
  | Function parameters body env => cases h
  | Builtin name => cases h
  | Array elements => cases h
  | Hash pairs => cases h
  | Error m => cases h

/-- `hashInsert` with clean key/value slots keeps the pair list clean. -/
theorem hashInsert_clean {pairs : List (HashKey × GoObj × GoObj)} {k : HashKey}
    {key value : GoObj} (hp : ∀ p ∈ pairs, CleanMem p.2.1 ∧ CleanMem p.2.2)
    (hk : CleanMem key) (hv : CleanMem value) :
    ∀ p ∈ hashInsert pairs k (key, value), CleanMem p.2.1 ∧ CleanMem p.2.2 := by
  intro p hpmem
  unfold hashInsert at hpmem
  split at hpmem
  · obtain ⟨orig, horig, heq⟩ := List.mem_map.mp hpmem
    by_cases hcase : orig.1 = k
    · simp only [hcase, if_pos] at heq
      subst heq
      exact ⟨hk, hv⟩
    · simp only [hcase, if_neg, ite_false] at heq
      subst heq
      exact hp orig horig
  · rcases List.mem_append.mp hpmem with h | h
    · exact hp p h
    · simp at h
      subst h
      exact ⟨hk, hv⟩

/-- `evalNotOperatorExpression` always yields a canonical boolean. -/
theorem notOp_clean (r : GoObj) : CleanMem (some (evalNotOperatorExpression r)) := by
  unfold evalNotOperatorExpression
  split
  · exact .boolean _
  · exact .boolean _
  · exact .boolean _
  · exact .boolean _

/-- Prefix evaluation yields a fresh atomic object or a bare error. -/
theorem prefix_resOk {op : String} {r : GoObj} {res : Object}
    (h : evalPrefixExpression op r = some res) : ResOk (some res) := by
  unfold evalPrefixExpression at h
  split_ifs at h with h1 h2
  · cases h
    exact Or.inl (notOp_clean r)
  · cases r with
    | none => simp [evalMinusPrefixOperatorExpression] at h
    | some right =>
      simp only [evalMinusPrefixOperatorExpression] at h
      split_ifs at h with h3
      · cases h
        exact Or.inr ⟨_, rfl⟩
      · cases right with
        | Integer value =>
          simp only [Option.some.injEq] at h
          subst h
          exact Or.inl (.integer _)
        | Str value => simp at h
        | Boolean value => simp at h
        | Null => simp at h
        | ReturnValue value => simp at h
        | Error m => simp at h
        | Function parameters body env => simp at h
        | Builtin name => simp at h
        | Array elements => simp at h
        | Hash pairs => simp at h
  · cases r with
    | none => cases h
    | some v => cases h; exact Or.inr ⟨_, rfl⟩

/-- Integer infix evaluation yields a fresh integer, boolean, or error. -/
theorem intInfix_resOk {op : String} {l r : GoObj} {res : Object}
    (h : evalIntegerInfixExpression op l r = some res) : ResOk (some res) := by
  cases l with
  | none => simp [evalIntegerInfixExpression] at h
  | some lv =>
    cases r with
    | none => cases lv <;> simp [evalIntegerInfixExpression] at h
    | some rv =>
      cases lv <;> cases rv <;> simp only [evalIntegerInfixExpression] at h <;> try cases h
      case Integer.Integer a b =>
        split_ifs at h <;>
          (try cases h) <;>
          first
            | exact Or.inl (.integer _)
            | exact Or.inl (by unfold nativeBoolToBooleanObject TRUE FALSE; split <;> exact .boolean _)
            | exact Or.inr ⟨_, rfl⟩

/-- String infix evaluation yields a fresh string or error. -/
theorem strInfix_resOk {op : String} {l r : GoObj} {res : Object}
    (h : evalStringInfixExpression op l r = some res) : ResOk (some res) := by
  cases l with
  | none => simp [evalStringInfixExpression] at h
  | some lv =>
    cases r with
    | none => cases lv <;> simp [evalStringInfixExpression] at h
    | some rv =>
      cases lv <;> cases rv <;> simp only [evalStringInfixExpression] at h <;> try cases h
      case Str.Str a b =>
        split_ifs at h <;> cases h
        · exact Or.inr ⟨_, rfl⟩
        · exact Or.inl (.str _)

/-- Infix evaluation yields a fresh object or a bare error. -/
theorem infix_resOk {op : String} {l r : GoObj} {res : Object}
    (h : evalInfixExpression op l r = some res) : ResOk (some res) := by
  cases l with
  | none => simp [evalInfixExpression] at h
  | some lv =>
    cases r with
    | none => simp [evalInfixExpression] at h
    | some rv =>
      simp only [evalInfixExpression] at h
      split_ifs at h with h1 h2 h3 h4 h5
      · exact intInfix_resOk h
      · exact strInfix_resOk h
      · cases h
        exact Or.inl (by unfold nativeBoolToBooleanObject TRUE FALSE; split <;> exact .boolean _)
      · cases h
        exact Or.inl (by unfold nativeBoolToBooleanObject TRUE FALSE; split <;> exact .boolean _)
      · cases h
        exact Or.inr ⟨_, rfl⟩
      · cases h
        exact Or.inr ⟨_, rfl⟩

/-- Array indexing on a clean array yields a clean slot or NULL. -/
theorem arrayIndex_resOk {a i : Object} {r : GoObj} (ha : CleanMem (some a))
    (h : evalArrayIndexExpression a i = some r) : ResOk r := by
  cases a with
  | Array elements =>
    cases i with
    | Integer idx =>
      simp only [evalArrayIndexExpression] at h
      split_ifs at h with hb
      · cases h
        exact Or.inl .null
      · cases h
        cases ha with
        | array _ helems => exact Or.inl (cleanMems_getD helems _)
    | Str value => simp [evalArrayIndexExpression] at h
    | Boolean value => simp [evalArrayIndexExpression] at h
    | Null => simp [evalArrayIndexExpression] at h
    | ReturnValue value => simp [evalArrayIndexExpression] at h
    | Error m => simp [evalArrayIndexExpression] at h
    | Function parameters body env => simp [evalArrayIndexExpression] at h
    | Builtin name => simp [evalArrayIndexExpression] at h
    | Array elements2 => simp [evalArrayIndexExpression] at h
    | Hash pairs => simp [evalArrayIndexExpression] at h
  | Integer value => simp [evalArrayIndexExpression] at h
  | Str value => simp [evalArrayIndexExpression] at h
  | Boolean value => simp [evalArrayIndexExpression] at h
  | Null => simp [evalArrayIndexExpression] at h
  | ReturnValue value => simp [evalArrayIndexExpression] at h
  | Error m => simp [evalArrayIndexExpression] at h
  | Function parameters body env => simp [evalArrayIndexExpression] at h
  | Builtin name => simp [evalArrayIndexExpression] at h
  | Hash pairs => simp [evalArrayIndexExpression] at h

/-- Hash indexing on a clean hash yields a clean slot, NULL, or an error. -/
theorem hashIndex_resOk {hobj : Object} {index r : GoObj} (hh : CleanMem (some hobj))
    (h : evalHashIndexExpression hobj index = some r) : ResOk r := by
  cases hobj with
  | Hash pairs =>
    cases index with
    | none => simp [evalHashIndexExpression] at h
    | some idx =>
      simp only [evalHashIndexExpression] at h
      cases hkey : hashKeyOf idx with
      | none =>
        simp only [hkey] at h
        cases h
        exact Or.inr ⟨_, rfl⟩
      | some k =>
        simp only [hkey] at h
        cases hfind : hashGet pairs k with
        | none =>
          simp only [hfind] at h
          cases h
          exact Or.inl .null
        | some pair =>
          simp only [hfind, Option.some.injEq] at h
          subst h
          cases hh with
          | hash _ _ hvals =>
            unfold hashGet at hfind
            cases hf : pairs.find? (fun e => e.1 = k) with
            | none => rw [hf] at hfind; cases hfind
            | some e =>
              rw [hf] at hfind
              cases hfind
              exact Or.inl (hvals e (List.mem_of_find?_eq_some hf))
  | Integer value => simp [evalHashIndexExpression] at h
  | Str value => simp [evalHashIndexExpression] at h
  | Boolean value => simp [evalHashIndexExpression] at h
  | Null => simp [evalHashIndexExpression] at h
  | ReturnValue value => simp [evalHashIndexExpression] at h
  | Error m => simp [evalHashIndexExpression] at h
  | Function parameters body env => simp [evalHashIndexExpression] at h
  | Builtin name => simp [evalHashIndexExpression] at h
  | Array elements => simp [evalHashIndexExpression] at h

/-- Index evaluation on a clean collection yields an acceptable result. -/
theorem index_resOk {left index r : GoObj} (hl : CleanMem left)
    (h : evalIndexExpression left index = some r) : ResOk r := by
  cases left with
  | none => simp [evalIndexExpression] at h
  | some l =>
    cases l with
    | Array elements =>
      cases index with
      | none => simp +decide [evalIndexExpression, Object.typeOf] at h
      | some i =>
        simp +decide [evalIndexExpression, Object.typeOf] at h
        split_ifs at h with hI
        · exact arrayIndex_resOk hl h
        · cases h
          exact Or.inr ⟨_, rfl⟩
    | Hash pairs =>
      simp +decide [evalIndexExpression, Object.typeOf] at h
      exact hashIndex_resOk hl h
    | Integer value =>
      simp +decide [evalIndexExpression, Object.typeOf] at h
      cases h
      exact Or.inr ⟨_, rfl⟩
    | Str value =>
      simp +decide [evalIndexExpression, Object.typeOf] at h
      cases h
      exact Or.inr ⟨_, rfl⟩
    | Boolean value =>
      simp +decide [evalIndexExpression, Object.typeOf] at h
      cases h
      exact Or.inr ⟨_, rfl⟩
    | Null =>
      simp +decide [evalIndexExpression, Object.typeOf] at h
      cases h
      exact Or.inr ⟨_, rfl⟩
    | ReturnValue value =>
      simp +decide [evalIndexExpression, Object.typeOf] at h
      cases h
      exact Or.inr ⟨_, rfl⟩
    | Error m =>
      simp +decide [evalIndexExpression, Object.typeOf] at h
      cases h
      exact Or.inr ⟨_, rfl⟩
    | Function parameters body env =>
      simp +decide [evalIndexExpression, Object.typeOf] at h
      cases h
      exact Or.inr ⟨_, rfl⟩
    | Builtin name =>
      simp +decide [evalIndexExpression, Object.typeOf] at h
      cases h
      exact Or.inr ⟨_, rfl⟩

/-- Unwrapping a top-level ReturnValue of an acceptable result stays
acceptable. -/
theorem unwrap_resOk {r : GoObj} (h : ResOk r) : ResOk (unwrapReturnValue r) := by
  unfold unwrapReturnValue
  rcases h with hc | ⟨m, rfl⟩
  · cases hc with
    | returnValue value hv => exact Or.inl hv
    | nil => exact Or.inl .nil
    | integer value => exact Or.inl (.integer _)
    | str value => exact Or.inl (.str _)
    | boolean value => exact Or.inl (.boolean _)
    | null => exact Or.inl .null
    | builtin name => exact Or.inl (.builtin _)
    | function parameters body env => exact Or.inl (.function _ _ _)
    | array elements helems => exact Or.inl (.array _ helems)
    | hash pairs hkeys hvals => exact Or.inl (.hash _ hkeys hvals)
  · exact Or.inr ⟨m, rfl⟩

/-- Identifier lookup in a clean store yields an acceptable result. -/
theorem identifier_resOk {name : String} {env : Nat} {store : Store}
    (hs : StoreClean store) : ResOk (evalIdentifier name env store) := by
  unfold evalIdentifier
  cases hget : envGet store env name with
  | some val => exact Or.inl (envGetFuel_clean _ store env name val hs hget)
  | none =>
    unfold builtinsLookup
    split_ifs
    · exact Or.inl (.builtin _)
    · exact Or.inr ⟨_, rfl⟩

/-- Builtin application with clean arguments yields an acceptable result. -/
theorem builtin_resOk {name : String} {args : List GoObj} {r : GoObj}
    (hargs : ∀ a ∈ args, CleanMem a)
    (h : applyBuiltin name args = some r) : ResOk r := by
  unfold applyBuiltin at h
  split_ifs at h with h1 h2 h3 h4 h5 h6 h7 h8 h9 h10 h11 h12
  · cases h
    exact Or.inl .null
  · cases h
    exact Or.inr ⟨_, rfl⟩
  · have hlen : args.length = 1 := by omega
    obtain ⟨a, rfl⟩ := List.length_eq_one.mp hlen
    have hmem : CleanMem a := hargs a (by simp)
    rw [show ([a].getD 0 none) = a from rfl] at h
    cases a with
    | none => simp at h
    | some v =>
      cases v <;> simp +decide [Object.typeOf] at h <;> subst h <;>
        first
          | exact Or.inl (.integer _)
          | exact Or.inr ⟨_, rfl⟩
  · cases h
    exact Or.inr ⟨_, rfl⟩
  · have hlen : args.length = 1 := by omega
    obtain ⟨a, rfl⟩ := List.length_eq_one.mp hlen
    have hmem : CleanMem a := hargs a (by simp)
    rw [show ([a].getD 0 none) = a from rfl] at h
    cases a with
    | none => simp at h
    | some v =>
      cases v with
      | Array elements =>
        simp +decide [Object.typeOf] at h
        split_ifs at h with hlen
        · cases h
          cases hmem with
          | array _ helems =>
            rw [← List.getD_eq_getElem?_getD]
            exact Or.inl (cleanMems_getD helems _)
        · cases h
          exact Or.inl .null
      | Integer value => simp +decide [Object.typeOf] at h; subst h; exact Or.inr ⟨_, rfl⟩
      | Str value => simp +decide [Object.typeOf] at h; subst h; exact Or.inr ⟨_, rfl⟩
      | Boolean value => simp +decide [Object.typeOf] at h; subst h; exact Or.inr ⟨_, rfl⟩
      | Null => simp +decide [Object.typeOf] at h; subst h; exact Or.inr ⟨_, rfl⟩
      | ReturnValue value => simp +decide [Object.typeOf] at h; subst h; exact Or.inr ⟨_, rfl⟩
      | Error m => simp +decide [Object.typeOf] at h; subst h; exact Or.inr ⟨_, rfl⟩
      | Function parameters body env =>
        simp +decide [Object.typeOf] at h; subst h; exact Or.inr ⟨_, rfl⟩
      | Builtin bname => simp +decide [Object.typeOf] at h; subst h; exact Or.inr ⟨_, rfl⟩
      | Hash pairs => simp +decide [Object.typeOf] at h; subst h; exact Or.inr ⟨_, rfl⟩
  · cases h
    exact Or.inr ⟨_, rfl⟩
  · have hlen : args.length = 1 := by omega
    obtain ⟨a, rfl⟩ := List.length_eq_one.mp hlen
    have hmem : CleanMem a := hargs a (by simp)
    rw [show ([a].getD 0 none) = a from rfl] at h
    cases a with
    | none => simp at h
    | some v =>
      cases v with
      | Array elements =>
        simp +decide [Object.typeOf] at h
        split_ifs at h with hlen
        · cases h
          cases hmem with
          | array _ helems =>
            rw [← List.getD_eq_getElem?_getD]
            exact Or.inl (cleanMems_getD helems _)
        · cases h
          exact Or.inl .null
      | Integer value => simp +decide [Object.typeOf] at h; subst h; exact Or.inr ⟨_, rfl⟩
      | Str value => simp +decide [Object.typeOf] at h; subst h; exact Or.inr ⟨_, rfl⟩
      | Boolean value => simp +decide [Object.typeOf] at h; subst h; exact Or.inr ⟨_, rfl⟩
      | Null => simp +decide [Object.typeOf] at h; subst h; exact Or.inr ⟨_, rfl⟩
      | ReturnValue value => simp +decide [Object.typeOf] at h; subst h; exact Or.inr ⟨_, rfl⟩
      | Error m => simp +decide [Object.typeOf] at h; subst h; exact Or.inr ⟨_, rfl⟩
      | Function parameters body env =>
        simp +decide [Object.typeOf] at h; subst h; exact Or.inr ⟨_, rfl⟩
      | Builtin bname => simp +decide [Object.typeOf] at h; subst h; exact Or.inr ⟨_, rfl⟩
      | Hash pairs => simp +decide [Object.typeOf] at h; subst h; exact Or.inr ⟨_, rfl⟩
  · cases h
    exact Or.inr ⟨_, rfl⟩
  · have hlen : args.length = 1 := by omega
    obtain ⟨a, rfl⟩ := List.length_eq_one.mp hlen
    have hmem : CleanMem a := hargs a (by simp)
    rw [show ([a].getD 0 none) = a from rfl] at h
    cases a with
    | none => simp at h
    | some v =>
      cases v with
      | Array elements =>
        simp +decide [Object.typeOf] at h
        split_ifs at h with hlen
        · cases h
          cases hmem with
          | array _ helems =>
            refine Or.inl (.array _ ?_)
            intro e he
            exact helems e (List.mem_of_mem_tail he)
        · cases h
          exact Or.inl .null
      | Integer value => simp +decide [Object.typeOf] at h; subst h; exact Or.inr ⟨_, rfl⟩
      | Str value => simp +decide [Object.typeOf] at h; subst h; exact Or.inr ⟨_, rfl⟩
      | Boolean value => simp +decide [Object.typeOf] at h; subst h; exact Or.inr ⟨_, rfl⟩
      | Null => simp +decide [Object.typeOf] at h; subst h; exact Or.inr ⟨_, rfl⟩
      | ReturnValue value => simp +decide [Object.typeOf] at h; subst h; exact Or.inr ⟨_, rfl⟩
      | Error m => simp +decide [Object.typeOf] at h; subst h; exact Or.inr ⟨_, rfl⟩
      | Function parameters body env =>
        simp +decide [Object.typeOf] at h; subst h; exact Or.inr ⟨_, rfl⟩
      | Builtin bname => simp +decide [Object.typeOf] at h; subst h; exact Or.inr ⟨_, rfl⟩
      | Hash pairs => simp +decide [Object.typeOf] at h; subst h; exact Or.inr ⟨_, rfl⟩
  · cases h
    exact Or.inr ⟨_, rfl⟩
  · have hlen : args.length = 2 := by omega
    obtain ⟨a, b, rfl⟩ := List.length_eq_two.mp hlen
    have hamem : CleanMem a := hargs a (by simp)
    have hbmem : CleanMem b := hargs b (by simp)
    rw [show ([a, b].getD 0 none) = a from rfl,
      show ([a, b].getD 1 none) = b from rfl] at h
    cases a with
    | none => simp at h
    | some v =>
      cases v with
      | Array elements =>
        simp +decide [Object.typeOf] at h
        subst h
        refine Or.inl (.array _ ?_)
        intro e he
        rcases List.mem_append.mp he with hmem | hmem
        · cases hamem with
          | array _ helems => exact helems e hmem
        · simp at hmem
          subst hmem
          exact hbmem
      | Integer value => simp +decide [Object.typeOf] at h; subst h; exact Or.inr ⟨_, rfl⟩
      | Str value => simp +decide [Object.typeOf] at h; subst h; exact Or.inr ⟨_, rfl⟩
      | Boolean value => simp +decide [Object.typeOf] at h; subst h; exact Or.inr ⟨_, rfl⟩
      | Null => simp +decide [Object.typeOf] at h; subst h; exact Or.inr ⟨_, rfl⟩
      | ReturnValue value => simp +decide [Object.typeOf] at h; subst h; exact Or.inr ⟨_, rfl⟩
      | Error m => simp +decide [Object.typeOf] at h; subst h; exact Or.inr ⟨_, rfl⟩
      | Function parameters body env =>
        simp +decide [Object.typeOf] at h; subst h; exact Or.inr ⟨_, rfl⟩
      | Builtin bname => simp +decide [Object.typeOf] at h; subst h; exact Or.inr ⟨_, rfl⟩
      | Hash pairs => simp +decide [Object.typeOf] at h; subst h; exact Or.inr ⟨_, rfl⟩

/-- `extendFunctionEnv` from a clean store with clean arguments yields a
clean store. -/
theorem extendEnv_clean {params : Option (List Identifier)} {fnEnv : Nat}
    {args : List GoObj} {store : Store} {ref : Nat} {store' : Store}
    (hs : StoreClean store) (hargs : ∀ a ∈ args, CleanMem a)
    (h : extendFunctionEnv params fnEnv args store = some (ref, store')) :
    StoreClean store' := by
  simp only [extendFunctionEnv, NewEnclosedEnvironment] at h
  cases hsp : setParamsLoop (params.getD []) 0 args store.length
      (store ++ [{ table := [], outer := some fnEnv }]) with
  | none => rw [hsp] at h; cases h
  | some st =>
    rw [hsp] at h
    cases h
    exact setParamsLoop_clean _ _ _ _ _ _ (storeClean_append_fresh hs _) hargs hsp

/-- Main preservation induction over the evaluator: from a clean store,
every mutual evaluation function returns an acceptable result (a clean
slot or a bare `Error`) and keeps the store clean; the expression-list
loop returns either an all-clean list or the singleton error list; the
hash-pair loop preserves cleanliness of the accumulated pairs. -/
theorem eval_preserves_clean : ∀ fuel : Nat,
    (∀ node env store r store', StoreClean store →
      Eval fuel node env store = some (r, store') → ResOk r ∧ StoreClean store') ∧
    (∀ result stmts env store r store', StoreClean store → CleanMem result →
      evalProgramLoop fuel result stmts env store = some (r, store') →
      ResOk r ∧ StoreClean store') ∧
    (∀ result stmts env store r store', StoreClean store → ResOk result →
      evalBlockLoop fuel result stmts env store = some (r, store') →
      ResOk r ∧ StoreClean store') ∧
    (∀ acc exprs env store rs store', StoreClean store → (∀ a ∈ acc, CleanMem a) →
      evalExpressionsLoop fuel acc exprs env store = some (rs, store') →
      ((∀ a ∈ rs, CleanMem a) ∨ ∃ m, rs = [some (Object.Error m)]) ∧ StoreClean store') ∧
    (∀ nodePairs pairs env store r store', StoreClean store →
      (∀ p ∈ pairs, CleanMem p.2.1) → (∀ p ∈ pairs, CleanMem p.2.2) →
      evalHashPairs fuel nodePairs pairs env store = some (r, store') →
      ResOk r ∧ StoreClean store') ∧
    (∀ cond cons alt env store r store', StoreClean store →
      evalIfExpression fuel cond cons alt env store = some (r, store') →
      ResOk r ∧ StoreClean store') ∧
    (∀ fn args store r store', StoreClean store → (∀ a ∈ args, CleanMem a) →
      applyFunction fuel fn args store = some (r, store') →
      ResOk r ∧ StoreClean store') := by
  intro fuel
  induction fuel with
  | zero =>
    refine ⟨?_, ?_, ?_, ?_, ?_, ?_, ?_⟩
    · intro node env store r store' _ h; exact Option.noConfusion h
    · intro result stmts env store r store' _ _ h; exact Option.noConfusion h
    · intro result stmts env store r store' _ _ h; exact Option.noConfusion h
    · intro acc exprs env store rs store' _ _ h; exact Option.noConfusion h
    · intro nodePairs pairs env store r store' _ _ _ h; exact Option.noConfusion h
    · intro cond cons alt env store r store' _ h; exact Option.noConfusion h
    · intro fn args store r store' _ _ h; exact Option.noConfusion h
  | succ fuel ih =>
    obtain ⟨ihE, ihP, ihB, ihX, ihH, ihI, ihA⟩ := ih
    refine ⟨?_, ?_, ?_, ?_, ?_, ?_, ?_⟩
    · -- Eval
      intro node env store r store' hs h
      cases node with
      | none =>
        simp only [Eval] at h
        cases h
        exact ⟨Or.inl .nil, hs⟩
      | some n =>
        cases n with
        | prog p =>
          simp only [Eval] at h
          exact ihP none p.statements env store r store' hs .nil h
        | block b =>
          cases b with
          | mk t stmts =>
            simp only [Eval] at h
            exact ihB none stmts env store r store' hs (Or.inl .nil) h
        | stmt st =>
          cases st with
          | exprStmt t e =>
            simp only [Eval] at h
            exact ihE (exprNode e) env store r store' hs h
          | returnStmt t rv =>
            simp only [Eval] at h
            cases hev : Eval fuel (exprNode rv) env store with
            | none => rw [hev] at h; exact Option.noConfusion h
            | some vs =>
              obtain ⟨val, store₂⟩ := vs
              obtain ⟨hval, hst₂⟩ := ihE (exprNode rv) env store val store₂ hs hev
              simp only [hev] at h
              split_ifs at h with herr
              · cases h
                exact ⟨hval, hst₂⟩
              · cases h
                exact ⟨Or.inl (.returnValue val
                  (cleanMem_of_resOk hval (by simpa using herr))), hst₂⟩
          | letStmt t name value =>
            simp only [Eval] at h
            cases hev : Eval fuel (exprNode value) env store with
            | none => rw [hev] at h; exact Option.noConfusion h
            | some vs =>
              obtain ⟨val, store₂⟩ := vs
              obtain ⟨hval, hst₂⟩ := ihE (exprNode value) env store val store₂ hs hev
              simp only [hev] at h
              split_ifs at h with herr
              · cases h
                exact ⟨hval, hst₂⟩
              · cases name with
                | none => exact Option.noConfusion h
                | some nm =>
                  cases h
                  exact ⟨Or.inl .nil, storeClean_envSet hst₂
                    (cleanMem_of_resOk hval (by simpa using herr))⟩
        | expr e =>
          cases e with
          | integerLiteral t v =>
            simp only [Eval] at h
            cases h
            exact ⟨Or.inl (.integer _), hs⟩
          | stringLiteral t v =>
            simp only [Eval] at h
            cases h
            exact ⟨Or.inl (.str _), hs⟩
          | boolean t v =>
            simp only [Eval] at h
            cases h
            cases v
            · exact ⟨Or.inl (.boolean _), hs⟩
            · exact ⟨Or.inl (.boolean _), hs⟩
          | ident i =>
            simp only [Eval] at h
            cases h
            exact ⟨identifier_resOk hs, hs⟩
          | arrayLiteral t elements =>
            simp only [Eval] at h
            cases hev : evalExpressionsLoop fuel [] (elements.getD []) env store with
            | none => rw [hev] at h; exact Option.noConfusion h
            | some vs =>
              obtain ⟨elems, store₂⟩ := vs
              obtain ⟨helems, hst₂⟩ := ihX [] (elements.getD []) env store elems store₂
                hs (by intro a ha; simp at ha) hev
              simp only [hev] at h
              split_ifs at h with hcond
              · cases h
                obtain ⟨m, hm⟩ := error_of_isError hcond.2
                exact ⟨Or.inr ⟨m, hm⟩, hst₂⟩
              · cases h
                rcases helems with hc | ⟨m, rfl⟩
                · exact ⟨Or.inl (.array _ hc), hst₂⟩
                · exact absurd ⟨rfl, rfl⟩ hcond
          | indexExpr t left index =>
            simp only [Eval] at h
            cases hev : Eval fuel (exprNode left) env store with
            | none => rw [hev] at h; exact Option.noConfusion h
            | some vs =>
              obtain ⟨l, store₂⟩ := vs
              obtain ⟨hl, hst₂⟩ := ihE (exprNode left) env store l store₂ hs hev
              simp only [hev] at h
              split_ifs at h with herr
              · cases h
                exact ⟨hl, hst₂⟩
              · cases hev2 : Eval fuel (exprNode index) env store₂ with
                | none => rw [hev2] at h; exact Option.noConfusion h
                | some vs₂ =>
                  obtain ⟨idx, store₃⟩ := vs₂
                  obtain ⟨hidx, hst₃⟩ := ihE (exprNode index) env store₂ idx store₃ hst₂ hev2
                  simp only [hev2] at h
                  split_ifs at h with herr2
                  · cases h
                    exact ⟨hidx, hst₃⟩
                  · cases hix : evalIndexExpression l idx with
                    | none => rw [hix] at h; exact Option.noConfusion h
                    | some r₂ =>
                      rw [hix] at h
                      cases h
                      exact ⟨index_resOk (cleanMem_of_resOk hl (by simpa using herr)) hix,
                        hst₃⟩
          | hashLiteral t pairs =>
            simp only [Eval] at h
            exact ihH pairs [] env store r store' hs
              (by intro p hp; simp at hp) (by intro p hp; simp at hp) h
          | prefixExpr t operator right =>
            simp only [Eval] at h
            cases hev : Eval fuel (exprNode right) env store with
            | none => rw [hev] at h; exact Option.noConfusion h
            | some vs =>
              obtain ⟨rv, store₂⟩ := vs
              obtain ⟨hrv, hst₂⟩ := ihE (exprNode right) env store rv store₂ hs hev
              simp only [hev] at h
              split_ifs at h with herr
              · cases h
                exact ⟨hrv, hst₂⟩
              · cases hp : evalPrefixExpression operator rv with
                | none => rw [hp] at h; exact Option.noConfusion h
                | some res =>
                  rw [hp] at h
                  cases h
                  exact ⟨prefix_resOk hp, hst₂⟩
          | infixExpr t left operator right =>
            simp only [Eval] at h
            cases hev : Eval fuel (exprNode left) env store with
            | none => rw [hev] at h; exact Option.noConfusion h
            | some vs =>
              obtain ⟨l, store₂⟩ := vs
              obtain ⟨hl, hst₂⟩ := ihE (exprNode left) env store l store₂ hs hev
              simp only [hev] at h
              split_ifs at h with herr
              · cases h
                exact ⟨hl, hst₂⟩
              · cases hev2 : Eval fuel (exprNode right) env store₂ with
                | none => rw [hev2] at h; exact Option.noConfusion h
                | some vs₂ =>
                  obtain ⟨rv, store₃⟩ := vs₂
                  obtain ⟨hrv, hst₃⟩ := ihE (exprNode right) env store₂ rv store₃ hst₂ hev2
                  simp only [hev2] at h
                  split_ifs at h with herr2
                  · cases h
                    exact ⟨hrv, hst₃⟩
                  · cases hi : evalInfixExpression operator l rv with
                    | none => rw [hi] at h; exact Option.noConfusion h
                    | some res =>
                      rw [hi] at h
                      cases h
                      exact ⟨infix_resOk hi, hst₃⟩
          | ifExpr t cond cons alt =>
            simp only [Eval] at h
            exact ihI cond cons alt env store r store' hs h
          | functionLiteral t params body =>
            simp only [Eval] at h
            cases h
            exact ⟨Or.inl (.function _ _ _), hs⟩
          | callExpr t function args =>
            simp only [Eval] at h
            cases hev : Eval fuel (exprNode function) env store with
            | none => rw [hev] at h; exact Option.noConfusion h
            | some vs =>
              obtain ⟨fn, store₂⟩ := vs
              obtain ⟨hfn, hst₂⟩ := ihE (exprNode function) env store fn store₂ hs hev
              simp only [hev] at h
              split_ifs at h with herr
              · cases h
                exact ⟨hfn, hst₂⟩
              · cases hev2 : evalExpressionsLoop fuel [] (args.getD []) env store₂ with
                | none => rw [hev2] at h; exact Option.noConfusion h
                | some vs₂ =>
                  obtain ⟨argv, store₃⟩ := vs₂
                  obtain ⟨hargv, hst₃⟩ := ihX [] (args.getD []) env store₂ argv store₃
                    hst₂ (by intro a ha; simp at ha) hev2
                  simp only [hev2] at h
                  split_ifs at h with hcond
                  · cases h
                    obtain ⟨m, hm⟩ := error_of_isError hcond.2
                    exact ⟨Or.inr ⟨m, hm⟩, hst₃⟩
                  · rcases hargv with hc | ⟨m, rfl⟩
                    · exact ihA fn argv store₃ r store' hst₃ hc h
                    · exact absurd ⟨rfl, rfl⟩ hcond
    · -- evalProgramLoop
      intro result stmts env store r store' hs hres h
      cases stmts with
      | nil =>
        simp only [evalProgramLoop] at h
        cases h
        exact ⟨Or.inl hres, hs⟩
      | cons s rest =>
        cases s with
        | none => exact Option.noConfusion h
        | some st =>
          simp only [evalProgramLoop] at h
          cases hev : Eval fuel (some (.stmt st)) env store with
          | none => rw [hev] at h; exact Option.noConfusion h
          | some vs =>
            obtain ⟨res, store₂⟩ := vs
            obtain ⟨hres₂, hst₂⟩ := ihE (some (.stmt st)) env store res store₂ hs hev
            simp only [hev] at h
            cases res with
            | none => exact ihP none rest env store₂ r store' hst₂ .nil h
            | some v =>
              cases v with
              | ReturnValue value =>
                cases h
                rcases hres₂ with hc | ⟨m, hm⟩
                · cases hc with
                  | returnValue _ hv => exact ⟨Or.inl hv, hst₂⟩
                · exact absurd hm (by simp)
              | Error m =>
                cases h
                exact ⟨Or.inr ⟨m, rfl⟩, hst₂⟩
              | Integer value =>
                exact ihP _ rest env store₂ r store' hst₂ (cleanMem_of_resOk hres₂ rfl) h
              | Str value =>
                exact ihP _ rest env store₂ r store' hst₂ (cleanMem_of_resOk hres₂ rfl) h
              | Boolean value =>
                exact ihP _ rest env store₂ r store' hst₂ (cleanMem_of_resOk hres₂ rfl) h
              | Null =>
                exact ihP _ rest env store₂ r store' hst₂ (cleanMem_of_resOk hres₂ rfl) h
              | Function params body fenv =>
                exact ihP _ rest env store₂ r store' hst₂ (cleanMem_of_resOk hres₂ rfl) h
              | Builtin bname =>
                exact ihP _ rest env store₂ r store' hst₂ (cleanMem_of_resOk hres₂ rfl) h
              | Array elements =>
                exact ihP _ rest env store₂ r store' hst₂ (cleanMem_of_resOk hres₂ rfl) h
              | Hash hpairs =>
                exact ihP _ rest env store₂ r store' hst₂ (cleanMem_of_resOk hres₂ rfl) h
    · -- evalBlockLoop
      intro result stmts env store r store' hs hres h
      cases stmts with
      | nil =>
        simp only [evalBlockLoop] at h
        cases h
        exact ⟨hres, hs⟩
      | cons s rest =>
        cases s with
        | none => exact Option.noConfusion h
        | some st =>
          simp only [evalBlockLoop] at h
          cases hev : Eval fuel (some (.stmt st)) env store with
          | none => rw [hev] at h; exact Option.noConfusion h
          | some vs =>
            obtain ⟨res, store₂⟩ := vs
            obtain ⟨hres₂, hst₂⟩ := ihE (some (.stmt st)) env store res store₂ hs hev
            simp only [hev] at h
            cases res with
            | none => exact ihB none rest env store₂ r store' hst₂ (Or.inl .nil) h
            | some v =>
              cases v with
              | ReturnValue value =>
                cases h
                exact ⟨hres₂, hst₂⟩
              | Error m =>
                cases h
                exact ⟨hres₂, hst₂⟩
              | Integer value => exact ihB _ rest env store₂ r store' hst₂ hres₂ h
              | Str value => exact ihB _ rest env store₂ r store' hst₂ hres₂ h
              | Boolean value => exact ihB _ rest env store₂ r store' hst₂ hres₂ h
              | Null => exact ihB _ rest env store₂ r store' hst₂ hres₂ h
              | Function params body fenv => exact ihB _ rest env store₂ r store' hst₂ hres₂ h
              | Builtin bname => exact ihB _ rest env store₂ r store' hst₂ hres₂ h
              | Array elements => exact ihB _ rest env store₂ r store' hst₂ hres₂ h
              | Hash hpairs => exact ihB _ rest env store₂ r store' hst₂ hres₂ h
    · -- evalExpressionsLoop
      intro acc exprs env store rs store' hs hacc h
      cases exprs with
      | nil =>
        simp only [evalExpressionsLoop] at h
        cases h
        exact ⟨Or.inl hacc, hs⟩
      | cons e rest =>
        simp only [evalExpressionsLoop] at h
        cases hev : Eval fuel (exprNode e) env store with
        | none => rw [hev] at h; exact Option.noConfusion h
        | some vs =>
          obtain ⟨evaluated, store₂⟩ := vs
          obtain ⟨heval, hst₂⟩ := ihE (exprNode e) env store evaluated store₂ hs hev
          simp only [hev] at h
          split_ifs at h with herr
          · cases h
            obtain ⟨m, hm⟩ := error_of_isError herr
            exact ⟨Or.inr ⟨m, by rw [hm]⟩, hst₂⟩
          · refine ihX (acc ++ [evaluated]) rest env store₂ rs store' hst₂ ?_ h
            intro a ha
            rcases List.mem_append.mp ha with ha' | ha'
            · exact hacc a ha'
            · simp at ha'
              subst ha'
              exact cleanMem_of_resOk heval (by simpa using herr)
    · -- evalHashPairs
      intro nodePairs pairs env store r store' hs hkeys hvals h
      cases nodePairs with
      | nil =>
        simp only [evalHashPairs] at h
        cases h
        exact ⟨Or.inl (.hash _ hkeys hvals), hs⟩
      | cons kv rest =>
        obtain ⟨keyNode, valueNode⟩ := kv
        simp only [evalHashPairs] at h
        cases hev : Eval fuel (exprNode keyNode) env store with
        | none => rw [hev] at h; exact Option.noConfusion h
        | some vs =>
          obtain ⟨key, store₂⟩ := vs
          obtain ⟨hkey, hst₂⟩ := ihE (exprNode keyNode) env store key store₂ hs hev
          simp only [hev] at h
          split_ifs at h with herr
          · cases h
            exact ⟨hkey, hst₂⟩
          · have hcomb : ∀ p ∈ pairs, CleanMem p.2.1 ∧ CleanMem p.2.2 :=
              fun p hp => ⟨hkeys p hp, hvals p hp⟩
            cases key with
            | none => exact Option.noConfusion h
            | some k =>
              cases k with
              | Integer kval =>
                cases hev2 : Eval fuel (exprNode valueNode) env store₂ with
                | none => rw [hev2] at h; exact Option.noConfusion h
                | some vs₂ =>
                  obtain ⟨value, store₃⟩ := vs₂
                  obtain ⟨hvalue, hst₃⟩ := ihE (exprNode valueNode) env store₂ value store₃
                    hst₂ hev2
                  simp only [hev2, hashKeyOf, reduceIte] at h
                  split_ifs at h with herr2
                  · cases h
                    exact ⟨hvalue, hst₃⟩
                  · have hvc : CleanMem value := cleanMem_of_resOk hvalue (by simpa using herr2)
                    refine ihH rest _ env store₃ r store' hst₃ ?_ ?_ h
                    · exact fun p hp => (hashInsert_clean hcomb (.integer _) hvc p hp).1
                    · exact fun p hp => (hashInsert_clean hcomb (.integer _) hvc p hp).2
              | Str kval =>
                cases hev2 : Eval fuel (exprNode valueNode) env store₂ with
                | none => rw [hev2] at h; exact Option.noConfusion h
                | some vs₂ =>
                  obtain ⟨value, store₃⟩ := vs₂
                  obtain ⟨hvalue, hst₃⟩ := ihE (exprNode valueNode) env store₂ value store₃
                    hst₂ hev2
                  simp only [hev2, hashKeyOf, reduceIte] at h
                  split_ifs at h with herr2
                  · cases h
                    exact ⟨hvalue, hst₃⟩
                  · have hvc : CleanMem value := cleanMem_of_resOk hvalue (by simpa using herr2)
                    refine ihH rest _ env store₃ r store' hst₃ ?_ ?_ h
                    · exact fun p hp => (hashInsert_clean hcomb (.str _) hvc p hp).1
                    · exact fun p hp => (hashInsert_clean hcomb (.str _) hvc p hp).2
              | Boolean kval =>
                cases kval with
                | false =>
                  cases hev2 : Eval fuel (exprNode valueNode) env store₂ with
                  | none => rw [hev2] at h; exact Option.noConfusion h
                  | some vs₂ =>
                    obtain ⟨value, store₃⟩ := vs₂
                    obtain ⟨hvalue, hst₃⟩ := ihE (exprNode valueNode) env store₂ value store₃
                      hst₂ hev2
                    simp only [hev2, show hashKeyOf (Object.Boolean false) = some ⟨BOOLEAN_OBJ, 0⟩ from rfl] at h
                    split_ifs at h with herr2
                    · cases h
                      exact ⟨hvalue, hst₃⟩
                    · have hvc : CleanMem value := cleanMem_of_resOk hvalue (by simpa using herr2)
                      refine ihH rest _ env store₃ r store' hst₃ ?_ ?_ h
                      · exact fun p hp => (hashInsert_clean hcomb (.boolean _) hvc p hp).1
                      · exact fun p hp => (hashInsert_clean hcomb (.boolean _) hvc p hp).2
                | true =>
                  cases hev2 : Eval fuel (exprNode valueNode) env store₂ with
                  | none => rw [hev2] at h; exact Option.noConfusion h
                  | some vs₂ =>
                    obtain ⟨value, store₃⟩ := vs₂
                    obtain ⟨hvalue, hst₃⟩ := ihE (exprNode valueNode) env store₂ value store₃
                      hst₂ hev2
                    simp only [hev2, show hashKeyOf (Object.Boolean true) = some ⟨BOOLEAN_OBJ, 1⟩ from rfl] at h
                    split_ifs at h with herr2
                    · cases h
                      exact ⟨hvalue, hst₃⟩
                    · have hvc : CleanMem value := cleanMem_of_resOk hvalue (by simpa using herr2)
                      refine ihH rest _ env store₃ r store' hst₃ ?_ ?_ h
                      · exact fun p hp => (hashInsert_clean hcomb (.boolean _) hvc p hp).1
                      · exact fun p hp => (hashInsert_clean hcomb (.boolean _) hvc p hp).2
              | Null =>
                cases h
                exact ⟨Or.inr ⟨_, rfl⟩, hst₂⟩
              | ReturnValue value =>
                cases h
                exact ⟨Or.inr ⟨_, rfl⟩, hst₂⟩
              | Function params body fenv =>
                cases h
                exact ⟨Or.inr ⟨_, rfl⟩, hst₂⟩
              | Builtin bname =>
                cases h
                exact ⟨Or.inr ⟨_, rfl⟩, hst₂⟩
              | Array elements =>
                cases h
                exact ⟨Or.inr ⟨_, rfl⟩, hst₂⟩
              | Hash hp =>
                cases h
                exact ⟨Or.inr ⟨_, rfl⟩, hst₂⟩
              | Error m =>
                cases h
                exact ⟨Or.inr ⟨_, rfl⟩, hst₂⟩
    · -- evalIfExpression
      intro cond cons alt env store r store' hs h
      simp only [evalIfExpression] at h
      cases hev : Eval fuel (exprNode cond) env store with
      | none => rw [hev] at h; exact Option.noConfusion h
      | some vs =>
        obtain ⟨condition, store₂⟩ := vs
        obtain ⟨hcond, hst₂⟩ := ihE (exprNode cond) env store condition store₂ hs hev
        simp only [hev] at h
        split_ifs at h with herr htruthy
        · cases h
          exact ⟨hcond, hst₂⟩
        · cases cons with
          | none => exact Option.noConfusion h
          | some b => exact ihE (some (.block b)) env store₂ r store' hst₂ h
        · cases alt with
          | none =>
            cases h
            exact ⟨Or.inl .null, hst₂⟩
          | some b => exact ihE (some (.block b)) env store₂ r store' hst₂ h
    · -- applyFunction
      intro fn args store r store' hs hargs h
      cases fn with
      | none => exact Option.noConfusion h
      | some v =>
        cases v with
        | Function params body fnEnv =>
          simp only [applyFunction] at h
          cases body with
          | none =>
            cases hext : extendFunctionEnv params fnEnv args store with
            | none => rw [hext] at h; exact Option.noConfusion h
            | some rs =>
              obtain ⟨ref, store₂⟩ := rs
              rw [hext] at h
              exact Option.noConfusion h
          | some b =>
            cases hext : extendFunctionEnv params fnEnv args store with
            | none => rw [hext] at h; exact Option.noConfusion h
            | some rs =>
              obtain ⟨ref, store₂⟩ := rs
              have hst₂ : StoreClean store₂ := extendEnv_clean hs hargs hext
              simp only [hext] at h
              cases hev : Eval fuel (some (.block b)) ref store₂ with
              | none => rw [hev] at h; exact Option.noConfusion h
              | some vs =>
                obtain ⟨evaluated, store₃⟩ := vs
                obtain ⟨heval, hst₃⟩ := ihE (some (.block b)) ref store₂ evaluated store₃
                  hst₂ hev
                simp only [hev] at h
                cases h
                exact ⟨unwrap_resOk heval, hst₃⟩
        | Builtin bname =>
          simp only [applyFunction] at h
          cases hb : applyBuiltin bname args with
          | none => rw [hb] at h; exact Option.noConfusion h
          | some r₂ =>
            rw [hb] at h
            cases h
            exact ⟨builtin_resOk hargs hb, hs⟩
        | Integer value =>
          simp only [applyFunction] at h
          cases h
          exact ⟨Or.inr ⟨_, rfl⟩, hs⟩
        | Str value =>
          simp only [applyFunction] at h
          cases h
          exact ⟨Or.inr ⟨_, rfl⟩, hs⟩
        | Boolean value =>
          simp only [applyFunction] at h
          cases h
          exact ⟨Or.inr ⟨_, rfl⟩, hs⟩
        | Null =>
          simp only [applyFunction] at h
          cases h
          exact ⟨Or.inr ⟨_, rfl⟩, hs⟩
        | ReturnValue value =>
          simp only [applyFunction] at h
          cases h
          exact ⟨Or.inr ⟨_, rfl⟩, hs⟩
        | Error m =>
          simp only [applyFunction] at h
          cases h
          exact ⟨Or.inr ⟨_, rfl⟩, hs⟩
        | Array elements =>
          simp only [applyFunction] at h
          cases h
          exact ⟨Or.inr ⟨_, rfl⟩, hs⟩
        | Hash hpairs =>
          simp only [applyFunction] at h
          cases h
          exact ⟨Or.inr ⟨_, rfl⟩, hs⟩

/-- Counterexample to C2.  The claim says a `ReturnValue` sentinel never
appears as an element of a constructed `Array` and that the value delivered
at the program boundary is never a `ReturnValue`.  Both parts are false:
for `return if (true) { return 5; };` the return statement wraps the
`ReturnValue` produced by the block (which `evalBlockStatement` deliberately
does not unwrap) in a second `ReturnValue`, and `evalProgram` unwraps only
the outer one, so the program boundary delivers a `ReturnValue`; and for
`[if (true) { return 5; }]` the element expression evaluates to a
`ReturnValue` which `evalExpressions` stores into the array unchecked. -/
theorem c2_sentinel_escape_counterexample :
    obsRun 99 "return if (true) \x7b return 5; \x7d;" = some ("RETURN_VALUE", some "5") ∧
    obsArrayElemTypes (runProgram 99
        (parseSource 99 "[if (true) \x7b return 5; \x7d]").1) =
      some [some RETURN_VALUE_OBJ] :=
  ⟨by decide, by decide⟩

/-- C2 (amended): for every program evaluated from a fresh environment,
whenever evaluation terminates the `Error` sentinel never appears nested
inside the delivered value — not as the payload of a `ReturnValue`, an
element of a constructed `Array`, or a key or value of a constructed
`Hash` — nor inside any environment binding; an `Error` can only be the
delivered value itself.  (`ReturnValue` sentinels, by contrast, can be
delivered and nested, as the counterexample shows.) -/
theorem c2_error_never_nested (fuel : Nat) (p : Program) :
    (runProgram fuel p).elim True (fun rs => ResOk rs.1 ∧ StoreClean rs.2) := by
  cases hrun : runProgram fuel p with
  | none => trivial
  | some rs =>
    obtain ⟨r, st⟩ := rs
    exact (eval_preserves_clean fuel).1 (some (.prog p)) 0 freshStore r st
      (by intro fr hfr e he; simp [freshStore] at hfr; subst hfr; simp at he) hrun

/-- Counterexample to C3.  The claim says hash literal key/value evaluation
is deterministic and follows source order.  But `evalHashLiteral` iterates
the Go map `node.Pairs` with `range`, whose enumeration order is
unspecified, so evaluation order is a function of the enumeration the
runtime happens to produce, not of the source: the two enumerations of the
same two-pair literal `{a: 1, b: 2}` (a permutation of one another) are
observably different — each evaluates its first enumerated key first, so
the failing identifier reported is `a` under one enumeration and `b` under
the other. -/
theorem c3_hash_order_counterexample :
    List.Perm
      [((some (.ident ⟨⟨"IDENT", "a"⟩, "a"⟩) : Option Expr),
         (some (.integerLiteral ⟨"INT", "1"⟩ 1) : Option Expr)),
       (some (.ident ⟨⟨"IDENT", "b"⟩, "b"⟩), some (.integerLiteral ⟨"INT", "2"⟩ 2))]
      [(some (.ident ⟨⟨"IDENT", "b"⟩, "b"⟩), some (.integerLiteral ⟨"INT", "2"⟩ 2)),
       (some (.ident ⟨⟨"IDENT", "a"⟩, "a"⟩), some (.integerLiteral ⟨"INT", "1"⟩ 1))] ∧
    obsResult 99 (evalHashPairs 99
        [(some (.ident ⟨⟨"IDENT", "a"⟩, "a"⟩), some (.integerLiteral ⟨"INT", "1"⟩ 1)),
         (some (.ident ⟨⟨"IDENT", "b"⟩, "b"⟩), some (.integerLiteral ⟨"INT", "2"⟩ 2))]
        [] 0 freshStore) =
      some ("ERROR", some "ERROR: Identifier not found: a") ∧
    obsResult 99 (evalHashPairs 99
        [(some (.ident ⟨⟨"IDENT", "b"⟩, "b"⟩), some (.integerLiteral ⟨"INT", "2"⟩ 2)),
         (some (.ident ⟨⟨"IDENT", "a"⟩, "a"⟩), some (.integerLiteral ⟨"INT", "1"⟩ 1))]
        [] 0 freshStore) =
      some ("ERROR", some "ERROR: Identifier not found: b") :=
  ⟨List.Perm.swap _ _ [], by decide, by decide⟩

/-- C3 (amended): for any one enumeration of a hash literal's pairs (the
order Go's map range happens to produce — unspecified, and not in general
the source order), evaluation is deterministic and proceeds pair-by-pair in
that enumeration order, the key before its value within each pair: the
hash literal dispatches to the pair loop, and one successful step of the
loop evaluates the first enumerated key in the incoming environment, then
that pair's value in the store the key evaluation produced, and only then
the remaining pairs in the store the value evaluation produced. -/
theorem c3_hash_pairwise_step (fuel : Nat) (t : Token)
    (pairs : List (Option Expr × Option Expr)) (env : Nat)
    (store store₂ store₃ : Store) (keyNode valueNode : Option Expr)
    (rest : List (Option Expr × Option Expr))
    (acc : List (HashKey × GoObj × GoObj)) (k : Object) (hashed : HashKey)
    (value : GoObj)
    (hk : Eval fuel (exprNode keyNode) env store = some (some k, store₂))
    (hkerr : isError (some k) = false)
    (hhash : hashKeyOf k = some hashed)
    (hv : Eval fuel (exprNode valueNode) env store₂ = some (value, store₃))
    (hverr : isError value = false) :
    Eval (fuel + 1) (some (.expr (.hashLiteral t pairs))) env store =
      evalHashPairs fuel pairs [] env store ∧
    evalHashPairs (fuel + 1) ((keyNode, valueNode) :: rest) acc env store =
      evalHashPairs fuel rest (hashInsert acc hashed (some k, value)) env store₃ := by
  refine ⟨rfl, ?_⟩
  simp [evalHashPairs, hk, hkerr, hhash, hv, hverr]

/-- Witness for `c3_hash_pairwise_step`: the singleton literal with the key
node `1` and the value node `2`, from the fresh environment. -/
theorem c3_hash_pairwise_step_witness :
    Eval 2 (some (.expr (.hashLiteral ⟨"\x7b", "\x7b"⟩
        [(some (.integerLiteral ⟨"INT", "1"⟩ 1),
          some (.integerLiteral ⟨"INT", "2"⟩ 2))]))) 0 freshStore =
      evalHashPairs 1
        [(some (.integerLiteral ⟨"INT", "1"⟩ 1),
          some (.integerLiteral ⟨"INT", "2"⟩ 2))] [] 0 freshStore ∧
    evalHashPairs 2
        [(some (.integerLiteral ⟨"INT", "1"⟩ 1),
          some (.integerLiteral ⟨"INT", "2"⟩ 2))] [] 0 freshStore =
      evalHashPairs 1 []
        (hashInsert [] ⟨INTEGER_OBJ, uint64OfInt 1⟩
          (some (.Integer 1), some (.Integer 2))) 0 freshStore :=
  c3_hash_pairwise_step 1 ⟨"\x7b", "\x7b"⟩
    [(some (.integerLiteral ⟨"INT", "1"⟩ 1), some (.integerLiteral ⟨"INT", "2"⟩ 2))]
    0 freshStore freshStore freshStore
    (some (.integerLiteral ⟨"INT", "1"⟩ 1)) (some (.integerLiteral ⟨"INT", "2"⟩ 2))
    [] [] (.Integer 1) ⟨INTEGER_OBJ, uint64OfInt 1⟩ (some (.Integer 2))
    rfl rfl rfl rfl rfl

end Doorkey
